import Mathlib

set_option linter.unusedSectionVars false

/-!
A shallow embedding of the in-memory Narwhal mempool storage
(`node/narwhal/src/helpers/storage.rs`) together with proofs about its
operations.

Modelling conventions.  Rust `IndexMap`/`IndexSet` become association lists /
plain lists kept in insertion order: `IndexMap::insert` replaces the value of
an existing key in place (keeping its position) or appends a fresh entry, and
`remove` has indexmap's `swap_remove` semantics (the removed slot is filled
with the final entry, which is then popped).  `HashMap`/`HashSet` become
association lists / lists whose order is never observed.  Field elements,
addresses, batch ids and transmission ids are modelled as `Nat`; timestamps
as `Int`; a transmission payload as `Nat`.  Fallible operations return
`Except Err`; operations whose Rust source can abort via `expect` return
`Option` (with `none` for the abort).  The externally injected liveness
policy `check_timestamp_for_liveness` is abstracted as a boolean predicate
argument `lv : Int → Bool`.
-/

section MapModel

variable {α : Type} {β : Type} [DecidableEq α]

/-- The keys of an association list, in order. -/
def keysOf (l : List (α × β)) : List α := l.map Prod.fst

/-- Lookup of the first entry with the given key. -/
def lookupA : List (α × β) → α → Option β
  | [], _ => none
  | e :: rest, k => if e.1 = k then some e.2 else lookupA rest k

/-- `contains_key`. -/
def containsA (l : List (α × β)) (k : α) : Bool := (lookupA l k).isSome

/-- `IndexMap::insert`: replace the value of an existing key in place,
otherwise append a fresh entry at the end. -/
def insertA : List (α × β) → α → β → List (α × β)
  | [], k, v => [(k, v)]
  | e :: rest, k, v => if e.1 = k then (k, v) :: rest else e :: insertA rest k v

/-- `HashMap::remove`: drop the entry with the given key. -/
def removeA : List (α × β) → α → List (α × β)
  | [], _ => []
  | e :: rest, k => if e.1 = k then rest else e :: removeA rest k

/-- `IndexSet::insert`: append the element if it is absent. -/
def insertS (l : List α) (x : α) : List α := if x ∈ l then l else l ++ [x]

/-- indexmap's `swap_remove` of the first element satisfying `p`: the removed
slot is filled with the final element, which is popped. -/
def swapRemoveP (p : α → Bool) : List α → List α
  | [] => []
  | a :: rest =>
    if p a then
      match rest.getLast? with
      | none => []
      | some z => z :: rest.dropLast
    else a :: swapRemoveP p rest

/-- `IndexMap::remove` (= `swap_remove`) by key. -/
def swapRemoveA (l : List (α × β)) (k : α) : List (α × β) :=
  swapRemoveP (fun e => decide (e.1 = k)) l

/-- Remove the first element satisfying `p` without the swap (used only in
proofs, as the order-insensitive companion of `swapRemoveP`). -/
def eraseFirstP (p : α → Bool) : List α → List α
  | [] => []
  | a :: rest => if p a then rest else a :: eraseFirstP p rest

/-- `collect::<IndexSet<_>>()`: deduplicate keeping first occurrences. -/
def dedupFirst (l : List α) : List α := l.foldl insertS []

end MapModel

/-- The Rust iterator `a..b` over `u64`, as a list. -/
def natRangeAux : Nat → Nat → List Nat
  | _, 0 => []
  | a, n + 1 => a :: natRangeAux (a + 1) n

/-- The Rust range `a..b`. -/
def natRange (a b : Nat) : List Nat := natRangeAux a (b - a)

/-- Modelled from the spec: the `Committee` capability
(`crate::helpers::Committee` is not part of the given sources).  A committee
is its round plus the stake-weighted member list; the quorum threshold is
`2f + 1` of the total stake, and `to_next_round` produces the committee at
`round + 1`. -/
structure Committee where
  round : Nat
  members : List (Nat × Nat)
deriving Repr, DecidableEq

/-- Modelled from the spec: total stake of the committee. -/
def Committee.total_stake (c : Committee) : Nat := (c.members.map Prod.snd).sum

/-- Modelled from the spec: the `2f + 1` quorum threshold over stake. -/
def Committee.quorum_threshold (c : Committee) : Nat :=
  2 * ((c.total_stake - 1) / 3) + 1

/-- Modelled from the spec: committee membership of an address. -/
def Committee.is_committee_member (c : Committee) (addr : Nat) : Bool :=
  c.members.any (fun m => decide (m.1 = addr))

/-- Modelled from the spec: number of committee members. -/
def Committee.num_members (c : Committee) : Nat := c.members.length

/-- Modelled from the spec: whether the stake of the given author set reaches
the quorum threshold. -/
def Committee.is_quorum_threshold_reached (c : Committee) (signers : List Nat) : Bool :=
  decide (c.quorum_threshold ≤
    ((c.members.filter (fun m => decide (m.1 ∈ signers))).map Prod.snd).sum)

/-- Modelled from the spec: the committee for the next round. -/
def Committee.to_next_round (c : Committee) : Committee :=
  { c with round := c.round + 1 }

/-- A batch header: author, round, timestamp, batch id, the declared
transmission ids (an ordered set in the source) and the previous certificate
ids. -/
structure BatchHeader where
  author : Nat
  round : Nat
  timestamp : Int
  batch_id : Nat
  transmission_ids : List Nat
  previous_certificate_ids : List Nat
deriving Repr, DecidableEq

/-- A batch certificate: its (opaque, derived) certificate id, the batch
header, and the co-signer signatures, each modelled as the signer address
paired with the signer timestamp. -/
structure BatchCertificate where
  certificate_id : Nat
  batch_header : BatchHeader
  signatures : List (Nat × Int)
deriving Repr, DecidableEq

def BatchCertificate.round (c : BatchCertificate) : Nat := c.batch_header.round

def BatchCertificate.author (c : BatchCertificate) : Nat := c.batch_header.author

def BatchCertificate.batch_id (c : BatchCertificate) : Nat := c.batch_header.batch_id

def BatchCertificate.transmission_ids (c : BatchCertificate) : List Nat :=
  c.batch_header.transmission_ids

/-- `BatchCertificate::timestamps`: the author timestamp chained with the
signer timestamps. -/
def BatchCertificate.timestamps (c : BatchCertificate) : List Int :=
  c.batch_header.timestamp :: c.signatures.map Prod.snd

/-- The typed errors produced by the `bail!`/`ensure!` sites of the source,
one constructor per site. -/
inductive Err where
  | batchExists
  | missingCommittee
  | authorNotInCommittee
  | timestampLiveness
  | missingTransmission
  | missingPreviousCommittee
  | missingPreviousCertificates
  | tooManyPreviousCertificates
  | missingPreviousCertificate
  | wrongPreviousRound
  | duplicatePreviousAuthor
  | previousQuorumNotReached
  | certificateExists
  | authorAlreadyInRound
  | signerNotInCommittee
  | signerQuorumNotReached
  | certificateBelowGc
  | nextRoundNonempty
  | roundMismatch
deriving Repr, DecidableEq

/-- Whether an `Except` result is an error. -/
def isErr {ε α : Type} : Except ε α → Bool
  | .error _ => true
  | .ok _ => false

/-- The storage for the memory pool: the five indices and the scalars.
`rounds` maps a round to its `(certificate_id, batch_id, author)` entries;
`transmissions` maps a transmission id to its payload and the set of
certificate ids referencing it. -/
structure Storage where
  current_round : Nat
  committees : List (Nat × Committee)
  gc_round : Nat
  max_gc_rounds : Nat
  rounds : List (Nat × List (Nat × Nat × Nat))
  certificates : List (Nat × BatchCertificate)
  batch_ids : List (Nat × Nat)
  transmissions : List (Nat × (Nat × List Nat))
deriving Repr, DecidableEq

/-- `Storage::new`. -/
def Storage.new (committee : Committee) (max_gc_rounds : Nat) : Storage :=
  { current_round := committee.round
    committees := [(committee.round, committee)]
    gc_round := 0
    max_gc_rounds := max_gc_rounds
    rounds := []
    certificates := []
    batch_ids := []
    transmissions := [] }

/-- `Storage::get_committee`. -/
def Storage.get_committee (s : Storage) (round : Nat) : Option Committee :=
  lookupA s.committees round

/-- `Storage::contains_certificates_for_round`. -/
def Storage.contains_certificates_for_round (s : Storage) (round : Nat) : Bool :=
  containsA s.rounds round

/-- `Storage::contains_certificate`. -/
def Storage.contains_certificate (s : Storage) (certificate_id : Nat) : Bool :=
  containsA s.certificates certificate_id

/-- `Storage::contains_certificate_in_round_from`. -/
def Storage.contains_certificate_in_round_from (s : Storage) (round : Nat) (author : Nat) : Bool :=
  match lookupA s.rounds round with
  | some es => es.any (fun e => decide (e.2.2 = author))
  | none => false

/-- `Storage::contains_batch`. -/
def Storage.contains_batch (s : Storage) (batch_id : Nat) : Bool :=
  containsA s.batch_ids batch_id

/-- `Storage::contains_transmission`. -/
def Storage.contains_transmission (s : Storage) (transmission_id : Nat) : Bool :=
  containsA s.transmissions transmission_id

/-- `Storage::get_certificate`. -/
def Storage.get_certificate (s : Storage) (certificate_id : Nat) : Option BatchCertificate :=
  lookupA s.certificates certificate_id

/-- `Storage::get_certificates_for_round`: the genesis round has no batch
certificates; otherwise collect (into an insertion-ordered set) the
certificates of the entries listed for the round. -/
def Storage.get_certificates_for_round (s : Storage) (round : Nat) : List BatchCertificate :=
  if round = 0 then []
  else
    match lookupA s.rounds round with
    | some entries => dedupFirst (entries.filterMap (fun e => lookupA s.certificates e.1))
    | none => []

/-- `Storage::remove_committee`. -/
def Storage.remove_committee (s : Storage) (round : Nat) : Storage :=
  { s with committees := swapRemoveA s.committees round }

/-- The transmission-collection loop of `check_batch_header`: for each
declared transmission id absent from storage, move the provided transmission
into the missing map (or fail).  Returns the missing map and the remaining
provided map. -/
def collect_missing (s : Storage) :
    List Nat → List (Nat × Nat) → List (Nat × Nat) →
      Except Err (List (Nat × Nat) × List (Nat × Nat))
  | [], provided, missing => .ok (missing, provided)
  | tid :: rest, provided, missing =>
    if containsA s.transmissions tid then collect_missing s rest provided missing
    else
      match lookupA provided tid with
      | none => .error .missingTransmission
      | some t => collect_missing s rest (removeA provided tid) (missing ++ [(tid, t)])

/-- The previous-certificate loop of `check_batch_header`: check existence,
round and author uniqueness of each declared previous certificate,
accumulating the set of previous authors. -/
def check_previous (s : Storage) (previous_round : Nat) :
    List Nat → List Nat → Except Err (List Nat)
  | [], authors => .ok authors
  | pcid :: rest, authors =>
    match s.get_certificate pcid with
    | none => .error .missingPreviousCertificate
    | some pc =>
      if pc.round ≠ previous_round then .error .wrongPreviousRound
      else if pc.author ∈ authors then .error .duplicatePreviousAuthor
      else check_previous s previous_round rest (authors ++ [pc.author])

/-- `Storage::check_batch_header`.  `lv` is the injected
`check_timestamp_for_liveness` policy. -/
def Storage.check_batch_header (s : Storage) (lv : Int → Bool) (batch_header : BatchHeader)
    (transmissions : List (Nat × Nat)) : Except Err (List (Nat × Nat)) :=
  let round := batch_header.round
  let gc_round := s.gc_round
  if s.contains_batch batch_header.batch_id then .error .batchExists
  else
    match s.get_committee round with
    | none => .error .missingCommittee
    | some committee =>
      if ! committee.is_committee_member batch_header.author then .error .authorNotInCommittee
      else if ! lv batch_header.timestamp then .error .timestampLiveness
      else
        match collect_missing s batch_header.transmission_ids transmissions [] with
        | .error e => .error e
        | .ok (missing_transmissions, _) =>
          let previous_round := round - 1
          if previous_round > gc_round then
            match s.get_committee previous_round with
            | none => .error .missingPreviousCommittee
            | some previous_committee =>
              if ! s.contains_certificates_for_round previous_round then
                .error .missingPreviousCertificates
              else if batch_header.previous_certificate_ids.length >
                  previous_committee.num_members then
                .error .tooManyPreviousCertificates
              else
                match check_previous s previous_round
                    batch_header.previous_certificate_ids [] with
                | .error e => .error e
                | .ok previous_authors =>
                  if ! previous_committee.is_quorum_threshold_reached previous_authors then
                    .error .previousQuorumNotReached
                  else .ok missing_transmissions
          else .ok missing_transmissions

/-- The signature loop of `check_certificate`: every signer must be a
committee member; the signer set accumulates the author and the signers. -/
def check_signers (committee : Committee) :
    List Nat → List Nat → Except Err (List Nat)
  | [], signers => .ok signers
  | signer :: rest, signers =>
    if ! committee.is_committee_member signer then .error .signerNotInCommittee
    else check_signers committee rest (insertS signers signer)

/-- The signer set `{author} ∪ signers` that `check_certificate` accumulates
(a `HashSet` in the source; here the deduplicating fold). -/
def cert_signers (c : BatchCertificate) : List Nat :=
  (c.signatures.map Prod.fst).foldl insertS [c.author]

/-- `Storage::check_certificate`. -/
def Storage.check_certificate (s : Storage) (lv : Int → Bool)
    (certificate : BatchCertificate) (transmissions : List (Nat × Nat)) :
    Except Err (List (Nat × Nat)) :=
  let round := certificate.round
  if s.contains_certificate certificate.certificate_id then .error .certificateExists
  else if s.contains_certificate_in_round_from round certificate.author then
    .error .authorAlreadyInRound
  else
    match s.check_batch_header lv certificate.batch_header transmissions with
    | .error e => .error e
    | .ok missing_transmissions =>
      if ! certificate.timestamps.all lv then .error .timestampLiveness
      else
        match s.get_committee round with
        | none => .error .missingCommittee
        | some committee =>
          match check_signers committee (certificate.signatures.map Prod.fst)
              [certificate.author] with
          | .error e => .error e
          | .ok signers =>
            if ! committee.is_quorum_threshold_reached signers then
              .error .signerQuorumNotReached
            else .ok missing_transmissions

/-- `rounds.entry(round).or_default().insert(triple)`. -/
def roundsInsert (l : List (Nat × List (Nat × Nat × Nat))) (r : Nat)
    (t : Nat × Nat × Nat) : List (Nat × List (Nat × Nat × Nat)) :=
  match lookupA l r with
  | some es => insertA l r (insertS es t)
  | none => l ++ [(r, insertS [] t)]

/-- The transmission loop of `insert_certificate_atomic`: for each declared
transmission id, create the entry from the missing map when absent (aborting
when the missing map does not provide it), and add the certificate id to the
entry's set.  Threads the mutable missing map; `none` models the `expect`
abort. -/
def insert_tx (certificate_id : Nat) :
    List Nat → List (Nat × (Nat × List Nat)) × List (Nat × Nat) →
      Option (List (Nat × (Nat × List Nat)) × List (Nat × Nat))
  | [], acc => some acc
  | tid :: rest, (tx, missing) =>
    match lookupA tx tid with
    | some e => insert_tx certificate_id rest
        (insertA tx tid (e.1, insertS e.2 certificate_id), missing)
    | none =>
      match lookupA missing tid with
      | none => none
      | some t => insert_tx certificate_id rest
          (tx ++ [(tid, (t, insertS [] certificate_id))], removeA missing tid)

/-- `Storage::insert_certificate_atomic`.  `none` models the `expect` abort
on a missing transmission. -/
def Storage.insert_certificate_atomic (s : Storage) (certificate : BatchCertificate)
    (missing_transmissions : List (Nat × Nat)) : Option Storage :=
  let round := certificate.round
  let certificate_id := certificate.certificate_id
  let batch_id := certificate.batch_id
  let author := certificate.author
  let rounds := roundsInsert s.rounds round (certificate_id, batch_id, author)
  let transmission_ids := certificate.transmission_ids
  let certificates := insertA s.certificates certificate_id certificate
  let batch_ids := insertA s.batch_ids batch_id round
  match insert_tx certificate_id transmission_ids (s.transmissions, missing_transmissions) with
  | none => none
  | some txm =>
    some { s with rounds := rounds, certificates := certificates,
                  batch_ids := batch_ids, transmissions := txm.1 }

/-- `Storage::insert_certificate`: the `ensure!` precondition, the admission
check, then the atomic write.  Error results carry the unchanged state. -/
def Storage.insert_certificate (s : Storage) (lv : Int → Bool)
    (certificate : BatchCertificate) (transmissions : List (Nat × Nat)) :
    Option (Except Err Unit × Storage) :=
  if certificate.round ≤ s.gc_round then some (.error .certificateBelowGc, s)
  else
    match s.check_certificate lv certificate transmissions with
    | .error e => some (.error e, s)
    | .ok missing_transmissions =>
      match s.insert_certificate_atomic certificate missing_transmissions with
      | none => none
      | some s1 => some (.ok (), s1)

/-- One iteration of the transmission loop of `remove_certificate`: remove
the certificate id from the entry's set and drop the entry when the set
becomes empty (a no-op when the entry is absent). -/
def remove_tx_step (certificate_id : Nat) (tx : List (Nat × (Nat × List Nat)))
    (tid : Nat) : List (Nat × (Nat × List Nat)) :=
  match lookupA tx tid with
  | none => tx
  | some e =>
    let cids := swapRemoveP (fun c => decide (c = certificate_id)) e.2
    let tx1 := insertA tx tid (e.1, cids)
    if cids.isEmpty then swapRemoveA tx1 tid else tx1

/-- The transmission loop of `remove_certificate`. -/
def remove_tx (certificate_id : Nat) (tx0 : List (Nat × (Nat × List Nat)))
    (tids : List Nat) : List (Nat × (Nat × List Nat)) :=
  tids.foldl (remove_tx_step certificate_id) tx0

/-- The rounds-index part of `remove_certificate`:
`rounds.entry(round).or_default().remove(&triple)` followed by dropping the
round key when its set has become empty. -/
def roundsRemove (l : List (Nat × List (Nat × Nat × Nat))) (r : Nat)
    (t : Nat × Nat × Nat) : List (Nat × List (Nat × Nat × Nat)) :=
  let rounds1 :=
    match lookupA l r with
    | some es => insertA l r (swapRemoveP (fun e => decide (e = t)) es)
    | none => l ++ [(r, [])]
  match lookupA rounds1 r with
  | some es => if es.isEmpty then swapRemoveA rounds1 r else rounds1
  | none => rounds1

/-- `Storage::remove_certificate`: returns `false` (and the unchanged state)
when the certificate is absent; otherwise removes the certificate from all
indices. -/
def Storage.remove_certificate (s : Storage) (certificate_id : Nat) : Bool × Storage :=
  match s.get_certificate certificate_id with
  | none => (false, s)
  | some certificate =>
    let round := certificate.round
    let batch_id := certificate.batch_id
    let author := certificate.author
    (true,
      { s with rounds := roundsRemove s.rounds round (certificate_id, batch_id, author),
               certificates := swapRemoveA s.certificates certificate_id,
               batch_ids := swapRemoveA s.batch_ids batch_id,
               transmissions := remove_tx certificate_id s.transmissions
                 certificate.transmission_ids })

/-- One iteration of the garbage-collection loop of
`increment_committee_to_next_round`: remove every certificate of the round,
then the round's committee. -/
def gc_one_round (s : Storage) (r : Nat) : Storage :=
  let s1 := (s.get_certificates_for_round r).foldl
    (fun t c => (t.remove_certificate c.certificate_id).2) s
  s1.remove_committee r

/-- `Storage::increment_committee_to_next_round`.  `none` models the
`expect` abort of `current_committee` when the current committee is absent.
Error results carry the state at the point of failure. -/
def Storage.increment_committee_to_next_round (s : Storage) :
    Option (Except Err Unit × Storage) :=
  match s.get_committee s.current_round with
  | none => none
  | some committee =>
    let next_committee := committee.to_next_round
    let next_round := next_committee.round
    if s.contains_certificates_for_round next_round then
      some (.error .nextRoundNonempty, s)
    else
      let s1 := { s with current_round := next_round,
                         committees := insertA s.committees next_round next_committee }
      let current_gc_round := s1.gc_round
      let next_gc_round := next_round - s1.max_gc_rounds
      let s2 :=
        if next_gc_round > current_gc_round then
          let s3 := (natRange current_gc_round next_gc_round).foldl gc_one_round s1
          { s3 with gc_round := next_gc_round }
        else s1
      if next_round = s2.current_round then some (.ok (), s2)
      else some (.error .roundMismatch, s2)

/-- The reachable states of the storage: an initial `new` state followed by
any sequence of completed public operations (`insert_certificate`,
`remove_certificate`, `increment_committee_to_next_round`). -/
inductive Reachable : Storage → Prop
  | init (committee : Committee) (max_gc_rounds : Nat) :
      Reachable (Storage.new committee max_gc_rounds)
  | insert (s s1 : Storage) (lv : Int → Bool) (certificate : BatchCertificate)
      (transmissions : List (Nat × Nat)) (r : Except Err Unit)
      (hs : Reachable s)
      (h : s.insert_certificate lv certificate transmissions = some (r, s1)) :
      Reachable s1
  | remove (s : Storage) (certificate_id : Nat) (hs : Reachable s) :
      Reachable (s.remove_certificate certificate_id).2
  | advance (s s1 : Storage) (r : Except Err Unit) (hs : Reachable s)
      (h : s.increment_committee_to_next_round = some (r, s1)) :
      Reachable s1

/-- The certificate ids referencing transmission id `tid` through the
certificate index: those `cid` whose stored certificate declares `tid`. -/
def refsTid (s : Storage) (tid cid : Nat) : Prop :=
  ∃ cert, lookupA s.certificates cid = some cert ∧ tid ∈ cert.transmission_ids

/-- Agreement of the transmission index with the certificate index
(invariant I4): every stored transmission entry's certificate-id set is
exactly the set of referencing certificate ids, and an entry exists exactly
when that set is non-empty. -/
def TransmissionsAgree (s : Storage) : Prop :=
  ∀ tid,
    (∀ t cids, lookupA s.transmissions tid = some (t, cids) →
      ∀ cid, cid ∈ cids ↔ refsTid s tid cid) ∧
    ((lookupA s.transmissions tid).isSome ↔ ∃ cid, refsTid s tid cid)

/-- The always-true liveness policy, used for concrete scenarios. -/
def lvT : Int → Bool := fun _ => true

/-- A committee at round 1 with a single member, address 0 with stake 1. -/
def sampleCommittee : Committee := { round := 1, members := [(0, 1)] }

/-- A batch header at round 1 by the single committee member, declaring one
transmission id. -/
def sampleHeader : BatchHeader :=
  { author := 0, round := 1, timestamp := 0, batch_id := 5,
    transmission_ids := [7], previous_certificate_ids := [] }

/-- The certificate wrapping `sampleHeader`. -/
def sampleCert : BatchCertificate :=
  { certificate_id := 99, batch_header := sampleHeader, signatures := [] }

/-- The provided transmissions for `sampleCert`. -/
def sampleProvided : List (Nat × Nat) := [(7, 42)]

/-- The store created with `sampleCommittee` and `max_gc_rounds = 1`. -/
def sample0 : Storage := Storage.new sampleCommittee 1

/-- The store after inserting `sampleCert` at round 1. -/
def sampleMid : Storage :=
  ((sample0.insert_certificate lvT sampleCert sampleProvided).getD (.ok (), sample0)).2

/-- The store after additionally advancing the committee to round 2. -/
def sampleFin : Storage :=
  ((sampleMid.increment_committee_to_next_round).getD (.ok (), sample0)).2

/-- A certificate at round 0, below the GC watermark of every store. -/
def gcCert : BatchCertificate :=
  { certificate_id := 98,
    batch_header := { author := 0, round := 0, timestamp := 0, batch_id := 4,
                      transmission_ids := [], previous_certificate_ids := [] },
    signatures := [] }

/-- A store whose rounds index already contains round 2, the next round of
its current committee. -/
def nextBusy : Storage :=
  { current_round := 1, committees := [(1, sampleCommittee)], gc_round := 0,
    max_gc_rounds := 1, rounds := [(2, [(50, 51, 0)])], certificates := [],
    batch_ids := [], transmissions := [] }

/-- The store after the first atomic insert of `sampleCert` into `sample0`. -/
def c8s1 : Storage :=
  (sample0.insert_certificate_atomic sampleCert sampleProvided).getD sample0

/-- The value update that the atomic-insert transmission loop applies to
entries already present: certificate id appended to the set of every entry
whose transmission id is declared. -/
def updOld (tids : List Nat) (cid : Nat) (e : Nat × (Nat × List Nat)) :
    Nat × (Nat × List Nat) :=
  if e.1 ∈ tids then (e.1, (e.2.1, insertS e.2.2 cid)) else e

/-- The structural invariants that every reachable storage state satisfies:
unique keys in every index, well-formed and non-empty round entries at
positive rounds, agreement of the round index with the certificate index,
agreement of the transmission index (invariant I4), and presence of the
current committee. -/
structure StInv (s : Storage) : Prop where
  ndc : (keysOf s.committees).Nodup
  ndr : (keysOf s.rounds).Nodup
  ndx : (keysOf s.certificates).Nodup
  ndb : (keysOf s.batch_ids).Nodup
  ndt : (keysOf s.transmissions).Nodup
  rsets_nodup : ∀ r es, (r, es) ∈ s.rounds → es.Nodup
  rsets_nonempty : ∀ r es, (r, es) ∈ s.rounds → es ≠ []
  rounds_pos : ∀ r es, (r, es) ∈ s.rounds → 1 ≤ r
  tsets_nodup : ∀ tid t cids, (tid, (t, cids)) ∈ s.transmissions → cids.Nodup
  cid_coherent : ∀ cid cert, (cid, cert) ∈ s.certificates → cert.certificate_id = cid
  agree_rc : ∀ r es, (r, es) ∈ s.rounds → ∀ e ∈ es,
      ∃ cert, (e.1, cert) ∈ s.certificates ∧ cert.round = r ∧
        cert.batch_id = e.2.1 ∧ cert.author = e.2.2
  tx_agree : TransmissionsAgree s
  cur_comm : (lookupA s.committees s.current_round).isSome = true

-- ===== definitions above, theorems below =====

/-- Claim C10: when `increment_committee_to_next_round` fails because the
rounds index already contains the next round, the error is returned before
any mutation: the returned state is exactly the input state. -/
theorem c10_increment_fails_unchanged (s : Storage) (committee : Committee)
    (h1 : s.get_committee s.current_round = some committee)
    (h2 : s.contains_certificates_for_round committee.to_next_round.round = true) :
    s.increment_committee_to_next_round = some (.error .nextRoundNonempty, s) := by
  unfold Storage.increment_committee_to_next_round
  rw [h1]
  simp [h2]

theorem c10_witness :
    nextBusy.increment_committee_to_next_round = some (.error .nextRoundNonempty, nextBusy) :=
  c10_increment_fails_unchanged nextBusy sampleCommittee rfl rfl

/-- Claim C6: `insert_certificate` errors when the certificate round is at or
below the GC round, and when `check_certificate` rejects; in every error case
the returned state is exactly the input state (all five indices and both
scalars unchanged) — the multi-index write happens only after admission. -/
theorem c6_insert_certificate_error_cases (s : Storage) (lv : Int → Bool)
    (certificate : BatchCertificate) (transmissions : List (Nat × Nat)) :
    (certificate.round ≤ s.gc_round →
      s.insert_certificate lv certificate transmissions =
        some (.error .certificateBelowGc, s)) ∧
    (∀ e, s.check_certificate lv certificate transmissions = .error e →
      ∃ e2, s.insert_certificate lv certificate transmissions = some (.error e2, s)) ∧
    (∀ e s1, s.insert_certificate lv certificate transmissions = some (.error e, s1) →
      s1 = s) := by
  unfold Storage.insert_certificate
  refine ⟨?_, ?_, ?_⟩
  · intro h
    simp [h]
  · intro e he
    by_cases hr : certificate.round ≤ s.gc_round
    · exact ⟨.certificateBelowGc, by simp [hr]⟩
    · exact ⟨e, by simp [hr, he]⟩
  · intro e s1 h
    by_cases hr : certificate.round ≤ s.gc_round
    · simp [hr] at h
      exact h.2.symm
    · simp [hr] at h
      rcases hc : s.check_certificate lv certificate transmissions with e2 | m
      · rw [hc] at h
        simp at h
        exact h.2.symm
      · rw [hc] at h
        simp at h
        rcases ha : s.insert_certificate_atomic certificate m with _ | s2
        · rw [ha] at h
          simp at h
        · rw [ha] at h
          simp at h

theorem c6_witness :
    sample0.insert_certificate lvT gcCert [] = some (.error .certificateBelowGc, sample0) :=
  (c6_insert_certificate_error_cases sample0 lvT gcCert []).1 (by decide)

/-- Claim C1 (refuting evaluation): the state reached from
`new(committee_at_round 1, max_gc_rounds 1)` by inserting `sampleCert` at
round 1 and advancing once is reachable, yet its rounds index still holds
round 1 while `gc_round = 1`, so the claimed invariant `r > gc_round` for
every data-index round fails on the code. -/
theorem c1_gc_invariant_fails : Reachable sampleFin ∧
    sampleFin.gc_round = 1 ∧ (lookupA sampleFin.rounds 1).isSome = true ∧
    ¬ (1 > sampleFin.gc_round) := by
  refine ⟨?_, by decide, by decide, by decide⟩
  exact Reachable.advance sampleMid sampleFin (.ok ())
    (Reachable.insert sample0 sampleMid lvT sampleCert sampleProvided (.ok ())
      (Reachable.init sampleCommittee 1) rfl) rfl

/-- Claim C2 (refuting evaluation): in the E5 scenario the code sets
`current_round = 2` and `gc_round = 1` but does **not** purge the round-1
certificate and does **not** drop `Committees[1]` (the GC loop iterates
`current_gc_round..next_gc_round`, which excludes round `next_gc_round = 1`),
contradicting the claim that `c1` is purged and `Committees[1]` dropped. -/
theorem c2_advance_does_not_purge : Reachable sampleFin ∧
    sampleFin.current_round = 2 ∧ sampleFin.gc_round = 1 ∧
    sampleFin.contains_certificate 99 = true ∧
    (lookupA sampleFin.committees 1).isSome = true ∧
    (lookupA sampleFin.committees 2).isSome = true := by
  refine ⟨?_, by decide, by decide, by decide, by decide, by decide⟩
  exact Reachable.advance sampleMid sampleFin (.ok ())
    (Reachable.insert sample0 sampleMid lvT sampleCert sampleProvided (.ok ())
      (Reachable.init sampleCommittee 1) rfl) rfl

section MapLemmas

variable {α : Type} {β : Type} [DecidableEq α]

theorem lookupA_mem {l : List (α × β)} {k : α} {v : β} (h : lookupA l k = some v) :
    (k, v) ∈ l := by
  induction l with
  | nil => simp [lookupA] at h
  | cons e rest ih =>
    obtain ⟨a, b⟩ := e
    rw [lookupA] at h
    by_cases hk : a = k
    · simp only [hk, if_pos rfl] at h
      injection h with h
      subst hk; subst h
      exact List.mem_cons_self _ _
    · simp only [if_neg hk] at h
      exact List.mem_cons_of_mem _ (ih h)

theorem lookupA_eq_none_iff {l : List (α × β)} {k : α} :
    lookupA l k = none ↔ k ∉ keysOf l := by
  induction l with
  | nil => simp [lookupA, keysOf]
  | cons e rest ih =>
    obtain ⟨a, b⟩ := e
    rw [lookupA, keysOf, List.map_cons]
    by_cases hk : a = k
    · simp [hk]
    · rw [if_neg hk, List.mem_cons]
      constructor
      · intro h hmem
        rcases hmem with h1 | h1
        · exact hk h1.symm
        · exact (ih.mp h) h1
      · intro h
        exact ih.mpr (fun hmem => h (Or.inr hmem))

theorem lookupA_isSome_iff {l : List (α × β)} {k : α} :
    (lookupA l k).isSome = true ↔ k ∈ keysOf l := by
  rcases h : lookupA l k with _ | v
  · simp [lookupA_eq_none_iff.mp h]
  · simp only [Option.isSome_some, true_iff]
    exact List.mem_map_of_mem Prod.fst (lookupA_mem h)

theorem lookupA_of_mem_nodup {l : List (α × β)} {k : α} {v : β}
    (hnd : (keysOf l).Nodup) (h : (k, v) ∈ l) : lookupA l k = some v := by
  induction l with
  | nil => simp at h
  | cons e rest ih =>
    obtain ⟨a, b⟩ := e
    simp only [keysOf, List.map_cons, List.nodup_cons] at hnd
    rcases List.mem_cons.mp h with h1 | h1
    · injection h1 with h1a h1b
      subst h1a; subst h1b
      simp [lookupA]
    · have hk : a ≠ k := by
        intro hak
        subst hak
        exact hnd.1 (List.mem_map_of_mem Prod.fst h1)
      rw [lookupA, if_neg hk]
      exact ih hnd.2 h1

theorem lookupA_insertA_self {l : List (α × β)} {k : α} {v : β} :
    lookupA (insertA l k v) k = some v := by
  induction l with
  | nil => simp [insertA, lookupA]
  | cons e rest ih =>
    obtain ⟨a, b⟩ := e
    by_cases hk : a = k
    · simp [insertA, hk, lookupA]
    · simp [insertA, hk, lookupA, ih]

theorem lookupA_insertA_ne {l : List (α × β)} {k k' : α} {v : β} (h : k' ≠ k) :
    lookupA (insertA l k v) k' = lookupA l k' := by
  have hne : ¬ (k = k') := fun hh => h hh.symm
  induction l with
  | nil => simp [insertA, lookupA, if_neg hne]
  | cons e rest ih =>
    obtain ⟨a, b⟩ := e
    by_cases hk : a = k
    · subst hk
      rw [insertA, if_pos rfl, lookupA, if_neg hne, lookupA, if_neg hne]
    · rw [insertA, if_neg hk, lookupA, lookupA]
      by_cases ha : a = k'
      · rw [if_pos ha, if_pos ha]
      · rw [if_neg ha, if_neg ha, ih]

theorem insertA_of_lookupA_none {l : List (α × β)} {k : α} (v : β)
    (h : lookupA l k = none) : insertA l k v = l ++ [(k, v)] := by
  induction l with
  | nil => simp [insertA]
  | cons e rest ih =>
    obtain ⟨a, b⟩ := e
    rw [lookupA] at h
    by_cases hk : a = k
    · simp [hk] at h
    · simp only [if_neg hk] at h
      simp [insertA, hk, ih h]

theorem insertA_self {l : List (α × β)} {k : α} {v : β}
    (h : lookupA l k = some v) : insertA l k v = l := by
  induction l with
  | nil => simp [lookupA] at h
  | cons e rest ih =>
    obtain ⟨a, b⟩ := e
    rw [lookupA] at h
    by_cases hk : a = k
    · simp only [hk, if_pos rfl] at h
      injection h with h
      simp [insertA, hk, h]
    · simp only [if_neg hk] at h
      simp [insertA, hk, ih h]

theorem keysOf_insertA_of_mem {l : List (α × β)} {k : α} {v : β}
    (h : k ∈ keysOf l) : keysOf (insertA l k v) = keysOf l := by
  induction l with
  | nil => simp [keysOf] at h
  | cons e rest ih =>
    obtain ⟨a, b⟩ := e
    by_cases hk : a = k
    · rw [insertA, if_pos hk, keysOf, keysOf, List.map_cons, List.map_cons]
      simp [hk]
    · rw [keysOf, List.map_cons, List.mem_cons] at h
      rcases h with h | h
      · exact absurd h.symm hk
      · rw [insertA, if_neg hk, keysOf, List.map_cons, keysOf, List.map_cons]
        congr 1
        exact ih h

theorem nodup_keys_insertA {l : List (α × β)} {k : α} {v : β}
    (hnd : (keysOf l).Nodup) : (keysOf (insertA l k v)).Nodup := by
  by_cases h : k ∈ keysOf l
  · rw [keysOf_insertA_of_mem h]
    exact hnd
  · rw [insertA_of_lookupA_none v (lookupA_eq_none_iff.mpr h)]
    rw [keysOf, List.map_append]
    simp only [List.map_cons, List.map_nil]
    rw [List.nodup_append]
    exact ⟨hnd, List.nodup_singleton k, by simpa [keysOf] using h⟩

theorem mem_removeA_sub {l : List (α × β)} {k : α} {e : α × β}
    (h : e ∈ removeA l k) : e ∈ l := by
  induction l with
  | nil => simp [removeA] at h
  | cons e1 rest ih =>
    rw [removeA] at h
    split at h
    · exact List.mem_cons_of_mem _ h
    · rcases List.mem_cons.mp h with h | h
      · exact h ▸ List.mem_cons_self _ _
      · exact List.mem_cons_of_mem _ (ih h)

theorem lookupA_removeA_ne {l : List (α × β)} {k k' : α} (h : k' ≠ k) :
    lookupA (removeA l k) k' = lookupA l k' := by
  have hne : ¬ (k = k') := fun hh => h hh.symm
  induction l with
  | nil => simp [removeA]
  | cons e rest ih =>
    obtain ⟨a, b⟩ := e
    by_cases hk : a = k
    · subst hk
      rw [removeA, if_pos rfl, lookupA, if_neg hne]
    · rw [removeA, if_neg hk, lookupA, lookupA]
      by_cases ha : a = k'
      · rw [if_pos ha, if_pos ha]
      · rw [if_neg ha, if_neg ha, ih]

theorem lookupA_removeA_none {l : List (α × β)} {k k' : α}
    (h : lookupA l k' = none) : lookupA (removeA l k) k' = none := by
  rcases hr : lookupA (removeA l k) k' with _ | v
  · rfl
  · have hmem := mem_removeA_sub (lookupA_mem hr)
    rw [lookupA_eq_none_iff] at h
    exact absurd (List.mem_map_of_mem Prod.fst hmem) h

theorem mem_insertS {l : List α} {a x : α} :
    x ∈ insertS l a ↔ x ∈ l ∨ x = a := by
  rw [insertS]
  split
  · rename_i h
    constructor
    · exact Or.inl
    · rintro (hx | rfl)
      · exact hx
      · exact h
  · simp

theorem insertS_of_mem {l : List α} {a : α} (h : a ∈ l) : insertS l a = l := by
  simp [insertS, h]

theorem insertS_of_not_mem {l : List α} {a : α} (h : a ∉ l) :
    insertS l a = l ++ [a] := by
  simp [insertS, h]

theorem nodup_insertS {l : List α} {a : α} (hnd : l.Nodup) :
    (insertS l a).Nodup := by
  by_cases h : a ∈ l
  · rw [insertS_of_mem h]; exact hnd
  · rw [insertS_of_not_mem h, List.nodup_append]
    exact ⟨hnd, List.nodup_singleton a, by simpa using h⟩

end MapLemmas

section SwapLemmas

variable {α : Type}

theorem getLastq_spec {l : List α} {z : α} (h : l.getLast? = some z) :
    l.dropLast ++ [z] = l := by
  induction l with
  | nil => simp at h
  | cons a rest ih =>
    cases rest with
    | nil =>
      simp at h
      simp [h]
    | cons b rest2 =>
      rw [List.getLast?_cons_cons] at h
      rw [List.dropLast_cons₂, List.cons_append, ih h]

theorem getLastq_none {l : List α} (h : l.getLast? = none) : l = [] := by
  cases l with
  | nil => rfl
  | cons a rest => simp [List.getLast?_eq_getLast] at h

theorem swapRemoveP_of_forall_not {p : α → Bool} {l : List α}
    (h : ∀ x ∈ l, p x = false) : swapRemoveP p l = l := by
  induction l with
  | nil => rfl
  | cons a rest ih =>
    rw [swapRemoveP]
    rw [h a (List.mem_cons_self _ _)]
    simp only [Bool.false_eq_true, if_false]
    rw [ih (fun x hx => h x (List.mem_cons_of_mem _ hx))]

theorem swapRemoveP_append_last {p : α → Bool} {l : List α} {x : α}
    (hx : p x = true) (h : ∀ y ∈ l, p y = false) :
    swapRemoveP p (l ++ [x]) = l := by
  induction l with
  | nil => simp [swapRemoveP, hx]
  | cons a rest ih =>
    rw [List.cons_append, swapRemoveP, h a (List.mem_cons_self _ _)]
    simp only [Bool.false_eq_true, if_false]
    rw [ih (fun y hy => h y (List.mem_cons_of_mem _ hy))]

theorem eraseFirstP_of_forall_not {p : α → Bool} {l : List α}
    (h : ∀ x ∈ l, p x = false) : eraseFirstP p l = l := by
  induction l with
  | nil => rfl
  | cons a rest ih =>
    rw [eraseFirstP, h a (List.mem_cons_self _ _)]
    simp only [Bool.false_eq_true, if_false]
    rw [ih (fun x hx => h x (List.mem_cons_of_mem _ hx))]

theorem eraseFirstP_sublist (p : α → Bool) (l : List α) :
    (eraseFirstP p l).Sublist l := by
  induction l with
  | nil => exact List.Sublist.refl []
  | cons a rest ih =>
    rw [eraseFirstP]
    split
    · exact List.sublist_cons_self a rest
    · exact List.Sublist.cons₂ a ih

theorem mem_eraseFirstP_sub {p : α → Bool} {l : List α} {x : α}
    (h : x ∈ eraseFirstP p l) : x ∈ l :=
  (eraseFirstP_sublist p l).mem h

theorem swapRemoveP_perm (p : α → Bool) (l : List α) :
    (swapRemoveP p l).Perm (eraseFirstP p l) := by
  induction l with
  | nil => exact List.Perm.refl []
  | cons a rest ih =>
    rw [swapRemoveP, eraseFirstP]
    by_cases hpa : p a = true
    · rw [if_pos hpa, if_pos hpa]
      rcases hz : rest.getLast? with _ | z
      · show List.Perm [] rest
        rw [getLastq_none hz]
      · show (z :: rest.dropLast).Perm rest
        have heq : rest.dropLast ++ [z] = rest := getLastq_spec hz
        have hp : (z :: rest.dropLast).Perm (rest.dropLast ++ [z]) :=
          (List.perm_append_singleton z rest.dropLast).symm
        rw [heq] at hp
        exact hp
    · rw [if_neg hpa, if_neg hpa]
      exact List.Perm.cons a ih

theorem nodup_swapRemoveP {p : α → Bool} {l : List α} (hnd : l.Nodup) :
    (swapRemoveP p l).Nodup :=
  ((swapRemoveP_perm p l).nodup_iff).mpr (hnd.sublist (eraseFirstP_sublist p l))

theorem mem_swapRemoveP_sub {p : α → Bool} {l : List α} {x : α}
    (h : x ∈ swapRemoveP p l) : x ∈ l :=
  mem_eraseFirstP_sub ((swapRemoveP_perm p l).mem_iff.mp h)

theorem swapRemoveP_append_left {p : α → Bool} {l1 l2 : List α}
    (h : ∀ y ∈ l1, p y = false) :
    swapRemoveP p (l1 ++ l2) = l1 ++ swapRemoveP p l2 := by
  induction l1 with
  | nil => simp
  | cons a rest ih =>
    rw [List.cons_append, swapRemoveP, h a (List.mem_cons_self _ _)]
    simp only [Bool.false_eq_true, if_false]
    rw [ih (fun y hy => h y (List.mem_cons_of_mem _ hy)), List.cons_append]

end SwapLemmas

section KeyedSwapLemmas

variable {α : Type} {β : Type} [DecidableEq α]

theorem keysOf_perm_of_perm {l1 l2 : List (α × β)} (h : l1.Perm l2) :
    (keysOf l1).Perm (keysOf l2) := h.map Prod.fst

theorem mem_keysOf_swapRemoveA_sub {l : List (α × β)} {k k' : α}
    (h : k' ∈ keysOf (swapRemoveA l k)) : k' ∈ keysOf l := by
  rw [keysOf, List.mem_map] at h
  obtain ⟨e, he, hk⟩ := h
  exact hk ▸ List.mem_map_of_mem Prod.fst (mem_swapRemoveP_sub he)

theorem nodup_keys_swapRemoveA {l : List (α × β)} {k : α}
    (hnd : (keysOf l).Nodup) : (keysOf (swapRemoveA l k)).Nodup := by
  rw [swapRemoveA]
  have hperm := keysOf_perm_of_perm (swapRemoveP_perm (fun e => decide (e.1 = k)) l)
  rw [hperm.nodup_iff]
  have hsub : (eraseFirstP (fun e => decide (e.1 = k)) l).Sublist l :=
    eraseFirstP_sublist _ l
  exact hnd.sublist (hsub.map Prod.fst)

theorem mem_eraseFirstP_key_iff {l : List (α × β)} {k : α} {e : α × β}
    (hnd : (keysOf l).Nodup) :
    e ∈ eraseFirstP (fun x => decide (x.1 = k)) l ↔ e ∈ l ∧ e.1 ≠ k := by
  induction l with
  | nil => simp [eraseFirstP]
  | cons e1 rest ih =>
    obtain ⟨a, b⟩ := e1
    simp only [keysOf, List.map_cons, List.nodup_cons] at hnd
    rw [eraseFirstP]
    by_cases hk : a = k
    · subst hk
      rw [if_pos (by simp)]
      constructor
      · intro h
        refine ⟨List.mem_cons_of_mem _ h, ?_⟩
        intro hek
        exact hnd.1 (hek ▸ List.mem_map_of_mem Prod.fst h)
      · rintro ⟨h, hek⟩
        rcases List.mem_cons.mp h with h1 | h1
        · exact absurd (by rw [h1]) hek
        · exact h1
    · rw [if_neg (by simpa using hk)]
      rw [List.mem_cons, List.mem_cons, ih hnd.2]
      constructor
      · rintro (rfl | ⟨h, hek⟩)
        · exact ⟨Or.inl rfl, hk⟩
        · exact ⟨Or.inr h, hek⟩
      · rintro ⟨h | h, hek⟩
        · exact Or.inl h
        · exact Or.inr ⟨h, hek⟩

theorem mem_swapRemoveA_iff {l : List (α × β)} {k : α} {e : α × β}
    (hnd : (keysOf l).Nodup) :
    e ∈ swapRemoveA l k ↔ e ∈ l ∧ e.1 ≠ k := by
  rw [swapRemoveA]
  rw [(swapRemoveP_perm (fun x => decide (x.1 = k)) l).mem_iff]
  exact mem_eraseFirstP_key_iff hnd

theorem lookupA_swapRemoveA_self {l : List (α × β)} {k : α}
    (hnd : (keysOf l).Nodup) : lookupA (swapRemoveA l k) k = none := by
  rcases h : lookupA (swapRemoveA l k) k with _ | v
  · rfl
  · have := (mem_swapRemoveA_iff hnd).mp (lookupA_mem h)
    exact absurd rfl this.2

theorem lookupA_swapRemoveA_ne {l : List (α × β)} {k k' : α}
    (hnd : (keysOf l).Nodup) (h : k' ≠ k) :
    lookupA (swapRemoveA l k) k' = lookupA l k' := by
  rcases h2 : lookupA l k' with _ | v
  · rcases h3 : lookupA (swapRemoveA l k) k' with _ | v2
    · rfl
    · have hmem := ((mem_swapRemoveA_iff hnd).mp (lookupA_mem h3)).1
      rw [lookupA_eq_none_iff] at h2
      exact absurd (List.mem_map_of_mem Prod.fst hmem) h2
  · have hmem : (k', v) ∈ swapRemoveA l k :=
      (mem_swapRemoveA_iff hnd).mpr ⟨lookupA_mem h2, h⟩
    exact lookupA_of_mem_nodup (nodup_keys_swapRemoveA hnd) hmem

end KeyedSwapLemmas

section DedupLemmas

variable {α : Type} [DecidableEq α]

theorem foldl_insertS_nodup {l acc : List α} (h : (acc ++ l).Nodup) :
    l.foldl insertS acc = acc ++ l := by
  induction l generalizing acc with
  | nil => simp
  | cons a rest ih =>
    rw [List.foldl_cons]
    rw [List.nodup_append] at h
    have ha : a ∉ acc := fun hmem => h.2.2 hmem (List.mem_cons_self a rest)
    rw [insertS_of_not_mem ha]
    have hnd : ((acc ++ [a]) ++ rest).Nodup := by
      rw [List.append_assoc, List.nodup_append]
      refine ⟨h.1, h.2.1, ?_⟩
      exact h.2.2
    rw [ih hnd, List.append_assoc]
    rfl

theorem dedupFirst_eq_self {l : List α} (h : l.Nodup) : dedupFirst l = l := by
  rw [dedupFirst]
  have h2 : (([] : List α) ++ l).Nodup := by simpa using h
  have := foldl_insertS_nodup h2
  simpa using this

theorem mem_foldl_insertS {l acc : List α} {x : α} :
    x ∈ l.foldl insertS acc ↔ x ∈ acc ∨ x ∈ l := by
  induction l generalizing acc with
  | nil => simp
  | cons a rest ih =>
    rw [List.foldl_cons, ih, mem_insertS]
    constructor
    · rintro ((h | rfl) | h)
      · exact Or.inl h
      · exact Or.inr (List.mem_cons_self _ _)
      · exact Or.inr (List.mem_cons_of_mem _ h)
    · rintro (h | h)
      · exact Or.inl (Or.inl h)
      · rcases List.mem_cons.mp h with rfl | h
        · exact Or.inl (Or.inr rfl)
        · exact Or.inr h

theorem mem_dedupFirst {l : List α} {x : α} : x ∈ dedupFirst l ↔ x ∈ l := by
  rw [dedupFirst, mem_foldl_insertS]
  simp

end DedupLemmas

theorem mem_natRangeAux {a n r : Nat} : r ∈ natRangeAux a n ↔ a ≤ r ∧ r < a + n := by
  induction n generalizing a with
  | zero =>
    rw [natRangeAux]
    simp only [List.not_mem_nil, false_iff]
    omega
  | succ m ih =>
    rw [natRangeAux]
    simp only [List.mem_cons, ih]
    omega

theorem mem_natRange {a b r : Nat} (h : a ≤ b) : r ∈ natRange a b ↔ a ≤ r ∧ r < b := by
  rw [natRange, mem_natRangeAux]
  omega

theorem nodup_natRangeAux {a n : Nat} : (natRangeAux a n).Nodup := by
  induction n generalizing a with
  | zero => exact List.nodup_nil
  | succ m ih =>
    rw [natRangeAux, List.nodup_cons]
    refine ⟨?_, ih⟩
    rw [mem_natRangeAux]
    omega

theorem nodup_natRange {a b : Nat} : (natRange a b).Nodup := nodup_natRangeAux

section MoreMapLemmas

variable {α : Type} {β : Type} [DecidableEq α]

theorem containsA_eq_false_iff {l : List (α × β)} {k : α} :
    containsA l k = false ↔ lookupA l k = none := by
  rw [containsA]
  rcases h : lookupA l k with _ | v <;> simp

theorem removeA_eq_eraseFirstP (l : List (α × β)) (k : α) :
    removeA l k = eraseFirstP (fun e => decide (e.1 = k)) l := by
  induction l with
  | nil => rfl
  | cons e rest ih =>
    obtain ⟨a, b⟩ := e
    rw [removeA, eraseFirstP]
    by_cases hk : a = k
    · rw [if_pos hk, if_pos (by simpa using hk)]
    · rw [if_neg hk, if_neg (by simpa using hk), ih]

theorem mem_removeA_iff {l : List (α × β)} {k : α} {e : α × β}
    (hnd : (keysOf l).Nodup) :
    e ∈ removeA l k ↔ e ∈ l ∧ e.1 ≠ k := by
  rw [removeA_eq_eraseFirstP]
  exact mem_eraseFirstP_key_iff hnd

theorem nodup_keys_removeA {l : List (α × β)} {k : α}
    (hnd : (keysOf l).Nodup) : (keysOf (removeA l k)).Nodup := by
  rw [removeA_eq_eraseFirstP]
  exact hnd.sublist ((eraseFirstP_sublist _ l).map Prod.fst)

end MoreMapLemmas

theorem collect_missing_ok_mem {s : Storage} {tids : List Nat}
    {provided missing out rem : List (Nat × Nat)}
    (hp : (keysOf provided).Nodup)
    (h : collect_missing s tids provided missing = .ok (out, rem)) :
    ∀ tid t, (tid, t) ∈ out ↔
      ((tid, t) ∈ missing ∨
        ((tid, t) ∈ provided ∧ tid ∈ tids ∧ lookupA s.transmissions tid = none)) := by
  induction tids generalizing provided missing with
  | nil =>
    rw [collect_missing] at h
    injection h with h
    injection h with h1 h2
    subst h1
    intro tid t
    simp
  | cons t0 rest ih =>
    rw [collect_missing] at h
    rcases hc : containsA s.transmissions t0 with _ | _
    · rw [hc] at h
      simp only [Bool.false_eq_true, if_false] at h
      rcases hl : lookupA provided t0 with _ | tv
      · rw [hl] at h
        cases h
      · rw [hl] at h
        have ihh := ih (nodup_keys_removeA hp) h
        intro tid t
        rw [ihh tid t]
        have hmemtv : (t0, tv) ∈ provided := lookupA_mem hl
        have hstore0 : lookupA s.transmissions t0 = none :=
          containsA_eq_false_iff.mp hc
        constructor
        · rintro (hm | ⟨hprov, hrest, hnone⟩)
          · rcases List.mem_append.mp hm with hm | hm
            · exact Or.inl hm
            · rcases List.mem_singleton.mp hm with heq
              injection heq with heq1 heq2
              subst heq1; subst heq2
              exact Or.inr ⟨hmemtv, List.mem_cons_self _ _, hstore0⟩
          · have := (mem_removeA_iff hp).mp hprov
            exact Or.inr ⟨this.1, List.mem_cons_of_mem _ hrest, hnone⟩
        · rintro (hm | ⟨hprov, hmem, hnone⟩)
          · exact Or.inl (List.mem_append_left _ hm)
          · by_cases he : tid = t0
            · subst he
              have := lookupA_of_mem_nodup hp hprov
              rw [hl] at this
              injection this with this
              subst this
              exact Or.inl (List.mem_append_right _ (List.mem_singleton.mpr rfl))
            · rcases List.mem_cons.mp hmem with h1 | h1
              · exact absurd h1 he
              · exact Or.inr ⟨(mem_removeA_iff hp).mpr ⟨hprov, he⟩, h1, hnone⟩
    · rw [hc] at h
      simp only [if_true] at h
      have ihh := ih hp h
      intro tid t
      rw [ihh tid t]
      constructor
      · rintro (hm | ⟨hprov, hrest, hnone⟩)
        · exact Or.inl hm
        · exact Or.inr ⟨hprov, List.mem_cons_of_mem _ hrest, hnone⟩
      · rintro (hm | ⟨hprov, hmem, hnone⟩)
        · exact Or.inl hm
        · rcases List.mem_cons.mp hmem with h1 | h1
          · subst h1
            rw [containsA, hnone] at hc
            simp at hc
          · exact Or.inr ⟨hprov, h1, hnone⟩

theorem collect_missing_fails {s : Storage} {tids : List Nat}
    {provided missing : List (Nat × Nat)} {tid : Nat}
    (hmem : tid ∈ tids) (hstore : lookupA s.transmissions tid = none)
    (hprov : lookupA provided tid = none) :
    collect_missing s tids provided missing = .error .missingTransmission := by
  induction tids generalizing provided missing with
  | nil => simp at hmem
  | cons t0 rest ih =>
    rw [collect_missing]
    rcases hc : containsA s.transmissions t0 with _ | _
    · simp only [Bool.false_eq_true, if_false]
      rcases hl : lookupA provided t0 with _ | tv
      · rfl
      · have hne : tid ≠ t0 := by
          intro he
          subst he
          rw [hprov] at hl
          cases hl
        have hmem2 : tid ∈ rest := by
          rcases List.mem_cons.mp hmem with h1 | h1
          · exact absurd h1 hne
          · exact h1
        exact ih hmem2 (lookupA_removeA_none hprov)
    · simp only [if_true]
      have hne : tid ≠ t0 := by
        intro he
        subst he
        rw [containsA, hstore] at hc
        simp at hc
      have hmem2 : tid ∈ rest := by
        rcases List.mem_cons.mp hmem with h1 | h1
        · exact absurd h1 hne
        · exact h1
      exact ih hmem2 hprov


theorem check_batch_header_ok_collect {s : Storage} {lv : Int → Bool}
    {bh : BatchHeader} {provided out : List (Nat × Nat)}
    (h : s.check_batch_header lv bh provided = .ok out) :
    ∃ rem, collect_missing s bh.transmission_ids provided [] = .ok (out, rem) := by
  unfold Storage.check_batch_header at h
  simp only [Bool.not_eq_true'] at h
  by_cases hb : s.contains_batch bh.batch_id = true
  · rw [if_pos hb] at h
    exact Except.noConfusion h
  rw [if_neg hb] at h
  rcases hcom : s.get_committee bh.round with _ | committee
  · simp only [hcom] at h
    exact Except.noConfusion h
  simp only [hcom] at h
  by_cases hm : committee.is_committee_member bh.author = false
  · rw [if_pos hm] at h
    exact Except.noConfusion h
  rw [if_neg hm] at h
  by_cases hlv : lv bh.timestamp = false
  · rw [if_pos hlv] at h
    exact Except.noConfusion h
  rw [if_neg hlv] at h
  rcases hcol : collect_missing s bh.transmission_ids provided [] with e | mrem
  · simp only [hcol] at h
    exact Except.noConfusion h
  obtain ⟨m, rem⟩ := mrem
  simp only [hcol] at h
  by_cases hprev : bh.round - 1 > s.gc_round
  swap
  · rw [if_neg hprev] at h
    injection h with h
    subst h
    exact ⟨rem, rfl⟩
  rw [if_pos hprev] at h
  rcases hpc : s.get_committee (bh.round - 1) with _ | previous_committee
  · simp only [hpc] at h
    exact Except.noConfusion h
  simp only [hpc] at h
  by_cases hcr : s.contains_certificates_for_round (bh.round - 1) = false
  · rw [if_pos hcr] at h
    exact Except.noConfusion h
  rw [if_neg hcr] at h
  by_cases hnum : bh.previous_certificate_ids.length > previous_committee.num_members
  · rw [if_pos hnum] at h
    exact Except.noConfusion h
  rw [if_neg hnum] at h
  rcases hcp : check_previous s (bh.round - 1) bh.previous_certificate_ids [] with e | pa
  · simp only [hcp] at h
    exact Except.noConfusion h
  simp only [hcp] at h
  by_cases hq : previous_committee.is_quorum_threshold_reached pa = false
  · rw [if_pos hq] at h
    exact Except.noConfusion h
  rw [if_neg hq] at h
  injection h with h
  subst h
  exact ⟨rem, rfl⟩

theorem check_batch_header_err_of_missing {s : Storage} {lv : Int → Bool}
    {bh : BatchHeader} {provided : List (Nat × Nat)} {tid : Nat}
    (hmem : tid ∈ bh.transmission_ids) (hstore : lookupA s.transmissions tid = none)
    (hprov : lookupA provided tid = none) :
    isErr (s.check_batch_header lv bh provided) = true := by
  have hcol : collect_missing s bh.transmission_ids provided [] =
      .error .missingTransmission := collect_missing_fails hmem hstore hprov
  rcases hres : s.check_batch_header lv bh provided with e | out
  · rfl
  · exfalso
    obtain ⟨rem, hok⟩ := check_batch_header_ok_collect hres
    rw [hcol] at hok
    exact Except.noConfusion hok

/-- Claim C4: when `check_batch_header` succeeds, the returned map holds
exactly the pairs of `provided_transmissions` whose transmission id is
declared in the header and absent from the stored transmissions index
(provided entries already in storage or undeclared are never returned); and
it fails whenever some declared id is neither in storage nor provided. -/
theorem c4_check_batch_header_missing (s : Storage) (lv : Int → Bool)
    (bh : BatchHeader) (provided : List (Nat × Nat))
    (hp : (keysOf provided).Nodup) :
    (∀ out, s.check_batch_header lv bh provided = .ok out →
      ∀ tid t, (tid, t) ∈ out ↔
        ((tid, t) ∈ provided ∧ tid ∈ bh.transmission_ids ∧
          lookupA s.transmissions tid = none)) ∧
    (∀ tid, tid ∈ bh.transmission_ids → lookupA s.transmissions tid = none →
      lookupA provided tid = none →
      isErr (s.check_batch_header lv bh provided) = true) := by
  constructor
  · intro out hok tid t
    obtain ⟨rem, hcol⟩ := check_batch_header_ok_collect hok
    have := collect_missing_ok_mem hp hcol tid t
    rw [this]
    simp only [List.not_mem_nil, false_or]
  · intro tid hmem hstore hprov
    exact check_batch_header_err_of_missing hmem hstore hprov

theorem c4_witness :
    (7, 42) ∈ sampleProvided ∧ 7 ∈ sampleHeader.transmission_ids ∧
      lookupA sample0.transmissions 7 = none :=
  ((c4_check_batch_header_missing sample0 lvT sampleHeader sampleProvided
      (by decide)).1 [(7, 42)] rfl 7 42).mp (by decide)

theorem check_signers_ok_of_members {committee : Committee} {l acc : List Nat}
    (h : ∀ a ∈ l, committee.is_committee_member a = true) :
    check_signers committee l acc = .ok (l.foldl insertS acc) := by
  induction l generalizing acc with
  | nil => rfl
  | cons a rest ih =>
    rw [check_signers, List.foldl_cons]
    rw [h a (List.mem_cons_self _ _)]
    simp only [Bool.not_true, Bool.false_eq_true, if_false]
    exact ih (fun x hx => h x (List.mem_cons_of_mem _ hx))

theorem check_signers_ok_inv {committee : Committee} {l acc out : List Nat}
    (h : check_signers committee l acc = .ok out) :
    (∀ a ∈ l, committee.is_committee_member a = true) ∧ out = l.foldl insertS acc := by
  induction l generalizing acc with
  | nil =>
    rw [check_signers] at h
    injection h with h
    exact ⟨by simp, h.symm⟩
  | cons a rest ih =>
    rw [check_signers] at h
    rcases hm : committee.is_committee_member a with _ | _
    · rw [hm] at h
      simp at h
    · rw [hm] at h
      simp only [Bool.not_true, Bool.false_eq_true, if_false] at h
      obtain ⟨h1, h2⟩ := ih h
      refine ⟨?_, by rw [List.foldl_cons]; exact h2⟩
      intro x hx
      rcases List.mem_cons.mp hx with rfl | hx
      · exact hm
      · exact h1 x hx

theorem check_certificate_ok_inv {s : Storage} {lv : Int → Bool}
    {certificate : BatchCertificate} {transmissions out : List (Nat × Nat)}
    (h : s.check_certificate lv certificate transmissions = .ok out) :
    s.contains_certificate certificate.certificate_id = false ∧
    s.contains_certificate_in_round_from certificate.round certificate.author = false ∧
    s.check_batch_header lv certificate.batch_header transmissions = .ok out ∧
    certificate.timestamps.all lv = true ∧
    ∃ committee, s.get_committee certificate.round = some committee ∧
      (∀ a ∈ certificate.signatures.map Prod.fst,
        committee.is_committee_member a = true) ∧
      committee.is_quorum_threshold_reached (cert_signers certificate) = true := by
  unfold Storage.check_certificate at h
  simp only [Bool.not_eq_true'] at h
  by_cases h1 : s.contains_certificate certificate.certificate_id = true
  · rw [if_pos h1] at h
    exact Except.noConfusion h
  rw [if_neg h1] at h
  by_cases h2 : s.contains_certificate_in_round_from certificate.round
      certificate.author = true
  · rw [if_pos h2] at h
    exact Except.noConfusion h
  rw [if_neg h2] at h
  rcases hh : s.check_batch_header lv certificate.batch_header transmissions with e | m
  · simp only [hh] at h
    exact Except.noConfusion h
  simp only [hh] at h
  by_cases hts : certificate.timestamps.all lv = false
  · rw [if_pos hts] at h
    exact Except.noConfusion h
  rw [if_neg hts] at h
  rcases hcom : s.get_committee certificate.round with _ | committee
  · simp only [hcom] at h
    exact Except.noConfusion h
  simp only [hcom] at h
  rcases hsig : check_signers committee
      (certificate.signatures.map Prod.fst) [certificate.author] with e | signers
  · simp only [hsig] at h
    exact Except.noConfusion h
  simp only [hsig] at h
  by_cases hq : committee.is_quorum_threshold_reached signers = false
  · rw [if_pos hq] at h
    exact Except.noConfusion h
  rw [if_neg hq] at h
  injection h with h
  subst h
  obtain ⟨hmem, hval⟩ := check_signers_ok_inv hsig
  refine ⟨by simpa using h1, by simpa using h2, rfl, by simpa using hts,
    committee, rfl, hmem, ?_⟩
  subst hval
  simpa using hq

theorem isErr_of_no_ok {ε α : Type} {r : Except ε α}
    (h : ∀ out, r = .ok out → False) : isErr r = true := by
  rcases r with e | out
  · rfl
  · exact (h out rfl).elim

/-- Claim C5: `check_certificate` returns an error whenever the certificate
id is already stored, or a certificate from the same author at the same
round is stored, or some signer is not a committee member at the
certificate's round, or the signer set `{author} ∪ signers` does not reach
the quorum threshold of the round's committee; and it succeeds when none of
these hold, `check_batch_header` accepts the header, and every certificate
timestamp passes the liveness check. -/
theorem c5_check_certificate_cases (s : Storage) (lv : Int → Bool)
    (certificate : BatchCertificate) (transmissions : List (Nat × Nat)) :
    (s.contains_certificate certificate.certificate_id = true →
      isErr (s.check_certificate lv certificate transmissions) = true) ∧
    (s.contains_certificate_in_round_from certificate.round certificate.author = true →
      isErr (s.check_certificate lv certificate transmissions) = true) ∧
    (∀ committee, s.get_committee certificate.round = some committee →
      (∃ p ∈ certificate.signatures, committee.is_committee_member p.1 = false) →
      isErr (s.check_certificate lv certificate transmissions) = true) ∧
    (∀ committee, s.get_committee certificate.round = some committee →
      committee.is_quorum_threshold_reached (cert_signers certificate) = false →
      isErr (s.check_certificate lv certificate transmissions) = true) ∧
    (∀ m committee, s.contains_certificate certificate.certificate_id = false →
      s.contains_certificate_in_round_from certificate.round certificate.author = false →
      s.check_batch_header lv certificate.batch_header transmissions = .ok m →
      (∀ ts ∈ certificate.timestamps, lv ts = true) →
      s.get_committee certificate.round = some committee →
      (∀ p ∈ certificate.signatures, committee.is_committee_member p.1 = true) →
      committee.is_quorum_threshold_reached (cert_signers certificate) = true →
      s.check_certificate lv certificate transmissions = .ok m) := by
  refine ⟨?_, ?_, ?_, ?_, ?_⟩
  · intro hc
    apply isErr_of_no_ok
    intro out hok
    have := (check_certificate_ok_inv hok).1
    rw [hc] at this
    exact Bool.noConfusion this
  · intro hc
    apply isErr_of_no_ok
    intro out hok
    have := (check_certificate_ok_inv hok).2.1
    rw [hc] at this
    exact Bool.noConfusion this
  · rintro committee hcom ⟨p, hp, hbad⟩
    apply isErr_of_no_ok
    intro out hok
    obtain ⟨-, -, -, -, c2, hc2, hmem, -⟩ := check_certificate_ok_inv hok
    rw [hcom] at hc2
    injection hc2 with hc2
    subst hc2
    have := hmem p.1 (List.mem_map_of_mem Prod.fst hp)
    rw [hbad] at this
    exact Bool.noConfusion this
  · intro committee hcom hq
    apply isErr_of_no_ok
    intro out hok
    obtain ⟨-, -, -, -, c2, hc2, -, hq2⟩ := check_certificate_ok_inv hok
    rw [hcom] at hc2
    injection hc2 with hc2
    subst hc2
    rw [hq] at hq2
    exact Bool.noConfusion hq2
  · intro m committee hnc hnr hok hts hcom hmem hq
    unfold Storage.check_certificate
    simp only [Bool.not_eq_true']
    rw [if_neg (by simp [hnc])]
    rw [if_neg (by simp [hnr])]
    simp only [hok]
    have hts2 : certificate.timestamps.all lv = true := by
      rw [List.all_eq_true]
      intro x hx
      exact hts x hx
    rw [if_neg (by simp [hts2])]
    simp only [hcom]
    have hmem2 : ∀ a ∈ certificate.signatures.map Prod.fst,
        committee.is_committee_member a = true := by
      intro a ha
      obtain ⟨p, hp, rfl⟩ := List.mem_map.mp ha
      exact hmem p hp
    simp only [check_signers_ok_of_members hmem2]
    have hq2 : committee.is_quorum_threshold_reached
        ((certificate.signatures.map Prod.fst).foldl insertS
          [certificate.author]) = true := hq
    rw [if_neg (by simp [hq2])]

theorem c5_witness :
    isErr (sampleMid.check_certificate lvT sampleCert sampleProvided) = true ∧
    sample0.check_certificate lvT sampleCert sampleProvided = .ok sampleProvided := by
  constructor
  · exact (c5_check_certificate_cases sampleMid lvT sampleCert sampleProvided).1
      (by decide)
  · exact (c5_check_certificate_cases sample0 lvT sampleCert
        sampleProvided).2.2.2.2 sampleProvided sampleCommittee (by decide)
      (by decide) rfl (by intro ts hts; rfl) (by decide)
      (by intro p hp; simp [sampleCert] at hp) (by decide)

section AppendLookup

variable {α : Type} {β : Type} [DecidableEq α]

theorem lookupA_append_of_some {l1 l2 : List (α × β)} {k : α} {v : β}
    (h : lookupA l1 k = some v) : lookupA (l1 ++ l2) k = some v := by
  induction l1 with
  | nil => simp [lookupA] at h
  | cons e rest ih =>
    obtain ⟨a, b⟩ := e
    rw [lookupA] at h
    rw [List.cons_append, lookupA]
    by_cases hk : a = k
    · rwa [if_pos hk] at h ⊢
    · rw [if_neg hk] at h ⊢
      exact ih h

theorem lookupA_append_of_none {l1 l2 : List (α × β)} {k : α}
    (h : lookupA l1 k = none) : lookupA (l1 ++ l2) k = lookupA l2 k := by
  induction l1 with
  | nil => simp
  | cons e rest ih =>
    obtain ⟨a, b⟩ := e
    rw [lookupA] at h
    rw [List.cons_append, lookupA]
    by_cases hk : a = k
    · rw [if_pos hk] at h
      cases h
    · rw [if_neg hk] at h ⊢
      exact ih h

end AppendLookup

theorem insert_tx_preserves_has_cid {cid : Nat} {tids : List Nat}
    {tx missing tx2 m2 : List _} {tid t : Nat} {cids : List Nat}
    (h : insert_tx cid tids (tx, missing) = some (tx2, m2))
    (hl : lookupA tx tid = some (t, cids)) (hc : cid ∈ cids) :
    ∃ cids2, lookupA tx2 tid = some (t, cids2) ∧ cid ∈ cids2 := by
  induction tids generalizing tx missing cids with
  | nil =>
    rw [insert_tx] at h
    injection h with h
    injection h with h1 h2
    subst h1
    exact ⟨cids, hl, hc⟩
  | cons t0 rest ih =>
    rw [insert_tx] at h
    rcases he : lookupA tx t0 with _ | e
    · rw [he] at h
      rcases hm : lookupA missing t0 with _ | tv
      · rw [hm] at h
        cases h
      · rw [hm] at h
        have hne : t0 ≠ tid := by
          intro hh
          subst hh
          rw [he] at hl
          cases hl
        have hl2 : lookupA (tx ++ [(t0, (tv, insertS [] cid))]) tid = some (t, cids) :=
          lookupA_append_of_some hl
        exact ih h hl2 hc
    · rw [he] at h
      by_cases hk : t0 = tid
      · subst hk
        rw [hl] at he
        injection he with he
        subst he
        have hl2 : lookupA (insertA tx t0 (t, insertS cids cid)) t0 =
            some (t, insertS cids cid) := lookupA_insertA_self
        exact ih h hl2 (mem_insertS.mpr (Or.inl hc))
      · have hl2 : lookupA (insertA tx t0 (e.1, insertS e.2 cid)) tid =
            some (t, cids) := by
          rw [lookupA_insertA_ne (fun hh => hk hh.symm)]
          exact hl
        exact ih h hl2 hc

theorem insert_tx_mem_after {cid : Nat} {tids : List Nat}
    {tx missing tx2 m2 : List _}
    (h : insert_tx cid tids (tx, missing) = some (tx2, m2)) :
    ∀ tid ∈ tids, ∃ t cids, lookupA tx2 tid = some (t, cids) ∧ cid ∈ cids := by
  induction tids generalizing tx missing with
  | nil => simp
  | cons t0 rest ih =>
    intro tid htid
    rw [insert_tx] at h
    rcases he : lookupA tx t0 with _ | e
    · rw [he] at h
      rcases hm : lookupA missing t0 with _ | tv
      · rw [hm] at h
        cases h
      · rw [hm] at h
        rcases List.mem_cons.mp htid with rfl | htid
        · have hl : lookupA (tx ++ [(tid, (tv, insertS [] cid))]) tid =
              some (tv, insertS [] cid) := by
            rw [lookupA_append_of_none he, lookupA]
            simp
          obtain ⟨cids2, hl2, hc2⟩ :=
            insert_tx_preserves_has_cid h hl (mem_insertS.mpr (Or.inr rfl))
          exact ⟨tv, cids2, hl2, hc2⟩
        · exact ih h tid htid
    · rw [he] at h
      rcases List.mem_cons.mp htid with rfl | htid
      · have hl : lookupA (insertA tx tid (e.1, insertS e.2 cid)) tid =
            some (e.1, insertS e.2 cid) := lookupA_insertA_self
        obtain ⟨cids2, hl2, hc2⟩ :=
          insert_tx_preserves_has_cid h hl (mem_insertS.mpr (Or.inr rfl))
        exact ⟨e.1, cids2, hl2, hc2⟩
      · exact ih h tid htid

theorem insert_tx_id_of_has_cid {cid : Nat} {tids : List Nat}
    {tx missing : List _}
    (h : ∀ tid ∈ tids, ∃ t cids, lookupA tx tid = some (t, cids) ∧ cid ∈ cids) :
    insert_tx cid tids (tx, missing) = some (tx, missing) := by
  induction tids with
  | nil => rfl
  | cons t0 rest ih =>
    obtain ⟨t, cids, hl, hc⟩ := h t0 (List.mem_cons_self _ _)
    simp only [insert_tx, hl]
    have h2 : insertA tx t0 (t, insertS cids cid) = tx := by
      rw [insertS_of_mem hc]
      exact insertA_self hl
    rw [h2]
    exact ih (fun tid htid => h tid (List.mem_cons_of_mem _ htid))

theorem roundsInsert_id {l : List (Nat × List (Nat × Nat × Nat))} {r : Nat}
    {es : List (Nat × Nat × Nat)} {t : Nat × Nat × Nat}
    (h : lookupA l r = some es) (ht : t ∈ es) : roundsInsert l r t = l := by
  simp only [roundsInsert, h, insertS_of_mem ht]
  exact insertA_self h

/-- Claim C8: re-invoking the atomic insert with the same certificate and any
map of missing transmissions terminates without the `expect` abort and leaves
every index exactly equal to the state after the first insert. -/
theorem c8_atomic_idempotent (s s1 : Storage) (certificate : BatchCertificate)
    (m m2 : List (Nat × Nat))
    (h : s.insert_certificate_atomic certificate m = some s1) :
    s1.insert_certificate_atomic certificate m2 = some s1 := by
  simp only [Storage.insert_certificate_atomic] at h ⊢
  rcases htx : insert_tx certificate.certificate_id certificate.transmission_ids
      (s.transmissions, m) with _ | txm
  · rw [htx] at h
    cases h
  rw [htx] at h
  injection h with h
  subst h
  simp only []
  have hrnd : lookupA (roundsInsert s.rounds certificate.round
      (certificate.certificate_id, certificate.batch_id, certificate.author))
      certificate.round = some (insertS ((lookupA s.rounds certificate.round).getD [])
        (certificate.certificate_id, certificate.batch_id, certificate.author)) := by
    rw [roundsInsert]
    rcases hl : lookupA s.rounds certificate.round with _ | es
    · rw [lookupA_append_of_none hl, lookupA]
      simp
    · simp only [Option.getD_some]
      exact lookupA_insertA_self
  have htx2 : insert_tx certificate.certificate_id certificate.transmission_ids
      (txm.1, m2) = some (txm.1, m2) :=
    insert_tx_id_of_has_cid (insert_tx_mem_after htx)
  have hcertid : insertA (insertA s.certificates certificate.certificate_id certificate)
      certificate.certificate_id certificate =
      insertA s.certificates certificate.certificate_id certificate :=
    insertA_self lookupA_insertA_self
  have hbatchid : insertA (insertA s.batch_ids certificate.batch_id certificate.round)
      certificate.batch_id certificate.round =
      insertA s.batch_ids certificate.batch_id certificate.round :=
    insertA_self lookupA_insertA_self
  have hrndid : roundsInsert (roundsInsert s.rounds certificate.round
        (certificate.certificate_id, certificate.batch_id, certificate.author))
      certificate.round
      (certificate.certificate_id, certificate.batch_id, certificate.author) =
      roundsInsert s.rounds certificate.round
        (certificate.certificate_id, certificate.batch_id, certificate.author) :=
    roundsInsert_id hrnd (mem_insertS.mpr (Or.inr rfl))
  simp only [htx2, hcertid, hbatchid, hrndid]

theorem c8_witness : c8s1.insert_certificate_atomic sampleCert [] = some c8s1 :=
  c8_atomic_idempotent sample0 c8s1 sampleCert sampleProvided [] rfl

theorem insertS_nil {α : Type} [DecidableEq α] (a : α) : insertS [] a = [a] := by
  simp [insertS]

theorem insertS_idem {α : Type} [DecidableEq α] (l : List α) (a : α) :
    insertS (insertS l a) a = insertS l a :=
  insertS_of_mem (mem_insertS.mpr (Or.inr rfl))

theorem updOld_fst (tids : List Nat) (cid : Nat) (e : Nat × (Nat × List Nat)) :
    (updOld tids cid e).1 = e.1 := by
  rw [updOld]
  split <;> rfl

theorem keysOf_map_updOld (tids : List Nat) (cid : Nat)
    (tx : List (Nat × (Nat × List Nat))) :
    keysOf (tx.map (updOld tids cid)) = keysOf tx := by
  induction tx with
  | nil => rfl
  | cons e rest ih =>
    rw [List.map_cons, keysOf, List.map_cons, updOld_fst]
    rw [keysOf] at ih
    rw [ih]
    rfl

theorem map_updOld_nil (cid : Nat) (tx : List (Nat × (Nat × List Nat))) :
    tx.map (updOld [] cid) = tx := by
  induction tx with
  | nil => rfl
  | cons e rest ih =>
    rw [List.map_cons, ih, updOld]
    simp

theorem lookupA_map_updOld {tids : List Nat} {cid : Nat}
    {tx : List (Nat × (Nat × List Nat))} (tid : Nat) :
    lookupA (tx.map (updOld tids cid)) tid =
      (lookupA tx tid).map
        (fun v => if tid ∈ tids then (v.1, insertS v.2 cid) else v) := by
  induction tx with
  | nil => rfl
  | cons e rest ih =>
    obtain ⟨a, b⟩ := e
    rw [List.map_cons, lookupA, lookupA, updOld_fst]
    by_cases hk : a = tid
    · subst hk
      rw [if_pos rfl, if_pos rfl]
      rw [updOld]
      by_cases hm : a ∈ tids
      · rw [if_pos hm]
        simp [hm]
      · rw [if_neg hm]
        simp [hm]
    · rw [if_neg hk, if_neg hk, ih]

theorem map_updOld_not_key {rest : List Nat} {t0 cid : Nat}
    {tx : List (Nat × (Nat × List Nat))} (h : ∀ e ∈ tx, e.1 ≠ t0) :
    tx.map (updOld rest cid) = tx.map (updOld (t0 :: rest) cid) := by
  induction tx with
  | nil => rfl
  | cons e rest2 ih =>
    rw [List.map_cons, List.map_cons]
    have hne := h e (List.mem_cons_self _ _)
    have heq : updOld rest cid e = updOld (t0 :: rest) cid e := by
      rw [updOld, updOld]
      by_cases hm : e.1 ∈ rest
      · rw [if_pos hm, if_pos (List.mem_cons_of_mem _ hm)]
      · rw [if_neg hm, if_neg ?_]
        intro hc
        rcases List.mem_cons.mp hc with hc | hc
        · exact hne hc
        · exact hm hc
    rw [heq, ih (fun x hx => h x (List.mem_cons_of_mem _ hx))]

theorem map_updOld_fresh {rest : List Nat} {t0 cid : Nat}
    {tx : List (Nat × (Nat × List Nat))} (h : lookupA tx t0 = none) :
    tx.map (updOld rest cid) = tx.map (updOld (t0 :: rest) cid) := by
  apply map_updOld_not_key
  intro e he hc
  rw [lookupA_eq_none_iff] at h
  exact h (hc ▸ List.mem_map_of_mem Prod.fst he)

theorem map_updOld_insertA {tx : List (Nat × (Nat × List Nat))} {t0 cid : Nat}
    {e : Nat × List Nat} {rest : List Nat}
    (hk : (keysOf tx).Nodup) (he : lookupA tx t0 = some e) :
    (insertA tx t0 (e.1, insertS e.2 cid)).map (updOld rest cid) =
      tx.map (updOld (t0 :: rest) cid) := by
  induction tx with
  | nil => simp [lookupA] at he
  | cons e1 rest2 ih =>
    obtain ⟨a, b⟩ := e1
    simp only [keysOf, List.map_cons, List.nodup_cons] at hk
    rw [lookupA] at he
    by_cases ha : a = t0
    · subst ha
      rw [if_pos rfl] at he
      injection he with he
      subst he
      rw [insertA, if_pos rfl, List.map_cons, List.map_cons]
      have hhead : ∀ v : Nat × List Nat,
          updOld rest cid (a, (v.1, insertS v.2 cid)) =
            updOld (a :: rest) cid (a, v) := by
        intro v
        by_cases hm : a ∈ rest
        · simp [updOld, hm, insertS_idem]
        · simp [updOld, hm]
      rw [hhead]
      have htail : rest2.map (updOld rest cid) = rest2.map (updOld (a :: rest) cid) := by
        apply map_updOld_not_key
        intro x hx hc
        exact hk.1 (hc ▸ List.mem_map_of_mem Prod.fst hx)
      rw [htail]
    · rw [if_neg ha] at he
      rw [insertA, if_neg ha, List.map_cons, List.map_cons]
      have hhead : updOld rest cid (a, b) = updOld (t0 :: rest) cid (a, b) := by
        rw [updOld, updOld]
        by_cases hm : a ∈ rest
        · rw [if_pos hm, if_pos (List.mem_cons_of_mem _ hm)]
        · rw [if_neg hm, if_neg ?_]
          intro hc
          rcases List.mem_cons.mp hc with hc | hc
          · exact ha hc
          · exact hm hc
      rw [hhead, ih hk.2 he]

theorem mem_eraseFirstP_elem_iff {α : Type} [DecidableEq α] {l : List α}
    {a x : α} (hnd : l.Nodup) :
    x ∈ eraseFirstP (fun c => decide (c = a)) l ↔ x ∈ l ∧ x ≠ a := by
  induction l with
  | nil => simp [eraseFirstP]
  | cons b rest ih =>
    rw [List.nodup_cons] at hnd
    rw [eraseFirstP]
    by_cases hb : b = a
    · subst hb
      rw [if_pos (by simp)]
      constructor
      · intro h
        refine ⟨List.mem_cons_of_mem _ h, ?_⟩
        intro he
        subst he
        exact hnd.1 h
      · rintro ⟨h, hx⟩
        rcases List.mem_cons.mp h with rfl | h
        · exact absurd rfl hx
        · exact h
    · rw [if_neg (by simpa using hb), List.mem_cons, List.mem_cons, ih hnd.2]
      constructor
      · rintro (rfl | ⟨h, hx⟩)
        · exact ⟨Or.inl rfl, hb⟩
        · exact ⟨Or.inr h, hx⟩
      · rintro ⟨h | h, hx⟩
        · exact Or.inl h
        · exact Or.inr ⟨h, hx⟩

theorem mem_swapRemoveC_iff {α : Type} [DecidableEq α] {l : List α} {a x : α}
    (hnd : l.Nodup) :
    x ∈ swapRemoveP (fun c => decide (c = a)) l ↔ x ∈ l ∧ x ≠ a := by
  rw [(swapRemoveP_perm (fun c => decide (c = a)) l).mem_iff]
  exact mem_eraseFirstP_elem_iff hnd

theorem swapRemoveC_eq_nil_iff {α : Type} [DecidableEq α] {l : List α} {a : α}
    (hnd : l.Nodup) :
    swapRemoveP (fun c => decide (c = a)) l = [] ↔ ∀ x ∈ l, x = a := by
  rw [List.eq_nil_iff_forall_not_mem]
  constructor
  · intro h x hx
    by_cases hxa : x = a
    · exact hxa
    · exact absurd ((mem_swapRemoveC_iff hnd).mpr ⟨hx, hxa⟩) (h x)
  · intro h x hx
    have := (mem_swapRemoveC_iff hnd).mp hx
    exact this.2 (h x this.1)

theorem insert_tx_struct {cid : Nat} {tids : List Nat}
    {tx missing : List _}
    (hk : (keysOf tx).Nodup)
    (hcov : ∀ tid ∈ tids, lookupA tx tid = none →
      (lookupA missing tid).isSome = true) :
    ∃ F m2, insert_tx cid tids (tx, missing) =
        some (tx.map (updOld tids cid) ++ F, m2) ∧
      (∀ e ∈ F, e.1 ∈ tids ∧ e.2.2 = [cid] ∧ lookupA tx e.1 = none) ∧
      (keysOf F).Nodup ∧
      (∀ tid, tid ∈ keysOf F ↔ (tid ∈ tids ∧ lookupA tx tid = none)) := by
  induction tids generalizing tx missing with
  | nil =>
    refine ⟨[], missing, ?_, by simp, List.nodup_nil, by simp [keysOf]⟩
    rw [map_updOld_nil, List.append_nil, insert_tx]
  | cons t0 rest ih =>
    rcases he : lookupA tx t0 with _ | e
    · rcases hm : lookupA missing t0 with _ | tv
      · have h2 := hcov t0 (List.mem_cons_self _ _) he
        rw [hm] at h2
        simp at h2
      · have hfresh : t0 ∉ keysOf tx := lookupA_eq_none_iff.mp he
        have hk1 : (keysOf (tx ++ [(t0, (tv, insertS [] cid))])).Nodup := by
          rw [keysOf, List.map_append, List.nodup_append]
          refine ⟨hk, by simp, ?_⟩
          intro x hx hx2
          simp only [List.map_cons, List.map_nil, List.mem_singleton] at hx2
          subst hx2
          exact hfresh hx
        have hlk1 : lookupA (tx ++ [(t0, (tv, insertS [] cid))]) t0 =
            some (tv, insertS [] cid) := by
          rw [lookupA_append_of_none he, lookupA]
          simp
        have hcov1 : ∀ tid ∈ rest,
            lookupA (tx ++ [(t0, (tv, insertS [] cid))]) tid = none →
            (lookupA (removeA missing t0) tid).isSome = true := by
          intro tid htid hnone
          have hne : tid ≠ t0 := by
            intro hh
            subst hh
            rw [hlk1] at hnone
            cases hnone
          have htx : lookupA tx tid = none := by
            rcases hl : lookupA tx tid with _ | v
            · rfl
            · rw [lookupA_append_of_some hl] at hnone
              cases hnone
          rw [lookupA_removeA_ne hne]
          exact hcov tid (List.mem_cons_of_mem _ htid) htx
        obtain ⟨F, m2, heq, hF, hFnd, hFiff⟩ := ih hk1 hcov1
        refine ⟨(t0, (tv, insertS [] cid)) :: F, m2, ?_, ?_, ?_, ?_⟩
        · have hstep : insert_tx cid (t0 :: rest) (tx, missing) =
              insert_tx cid rest
                (tx ++ [(t0, (tv, insertS [] cid))], removeA missing t0) := by
            rw [insert_tx, he, hm]
          rw [hstep, heq]
          have hmap : (tx ++ [(t0, (tv, insertS [] cid))]).map (updOld rest cid) =
              tx.map (updOld (t0 :: rest) cid) ++ [(t0, (tv, insertS [] cid))] := by
            rw [List.map_append, ← map_updOld_fresh he]
            congr 1
            rw [List.map_cons, List.map_nil]
            congr 1
            by_cases hm2 : t0 ∈ rest
            · simp [updOld, hm2, insertS_idem]
            · simp [updOld, hm2]
          rw [hmap, List.append_assoc]
          rfl
        · intro e2 he2
          rcases List.mem_cons.mp he2 with rfl | he2
          · exact ⟨List.mem_cons_self _ _, by rw [insertS_nil], he⟩
          · obtain ⟨hmem, hset, hfr⟩ := hF e2 he2
            refine ⟨List.mem_cons_of_mem _ hmem, hset, ?_⟩
            rcases hl : lookupA tx e2.1 with _ | v
            · rfl
            · rw [lookupA_append_of_some hl] at hfr
              cases hfr
        · rw [keysOf, List.map_cons, List.nodup_cons]
          constructor
          · intro hmem
            have := (hFiff t0).mp hmem
            rw [hlk1] at this
            cases this.2
          · exact hFnd
        · intro tid
          rw [keysOf, List.map_cons, List.mem_cons]
          constructor
          · rintro (rfl | hmem)
            · exact ⟨List.mem_cons_self _ _, he⟩
            · obtain ⟨hr, hn⟩ := (hFiff tid).mp hmem
              have hne : tid ≠ t0 := by
                intro hh
                subst hh
                rw [hlk1] at hn
                cases hn
              have htx : lookupA tx tid = none := by
                rcases hl : lookupA tx tid with _ | v
                · rfl
                · rw [lookupA_append_of_some hl] at hn
                  cases hn
              exact ⟨List.mem_cons_of_mem _ hr, htx⟩
          · rintro ⟨hmem, hnone⟩
            by_cases hne : tid = t0
            · exact Or.inl hne
            · right
              apply (hFiff tid).mpr
              refine ⟨?_, ?_⟩
              · rcases List.mem_cons.mp hmem with h1 | h1
                · exact absurd h1 hne
                · exact h1
              · rw [lookupA_append_of_none hnone, lookupA]
                rw [if_neg (fun hh => hne hh.symm)]
                rfl
    · have hk1 : (keysOf (insertA tx t0 (e.1, insertS e.2 cid))).Nodup :=
        nodup_keys_insertA hk
      have hlk1 : lookupA (insertA tx t0 (e.1, insertS e.2 cid)) t0 =
          some (e.1, insertS e.2 cid) := lookupA_insertA_self
      have hcov1 : ∀ tid ∈ rest,
          lookupA (insertA tx t0 (e.1, insertS e.2 cid)) tid = none →
          (lookupA missing tid).isSome = true := by
        intro tid htid hnone
        have hne : tid ≠ t0 := by
          intro hh
          subst hh
          rw [hlk1] at hnone
          cases hnone
        rw [lookupA_insertA_ne hne] at hnone
        exact hcov tid (List.mem_cons_of_mem _ htid) hnone
      obtain ⟨F, m2, heq, hF, hFnd, hFiff⟩ := ih hk1 hcov1
      refine ⟨F, m2, ?_, ?_, hFnd, ?_⟩
      · have hstep : insert_tx cid (t0 :: rest) (tx, missing) =
            insert_tx cid rest (insertA tx t0 (e.1, insertS e.2 cid), missing) := by
          rw [insert_tx, he]
        rw [hstep, heq, map_updOld_insertA hk he]
      · intro e2 he2
        obtain ⟨hmem, hset, hfr⟩ := hF e2 he2
        have hne : e2.1 ≠ t0 := by
          intro hh
          rw [hh, hlk1] at hfr
          cases hfr
        rw [lookupA_insertA_ne hne] at hfr
        exact ⟨List.mem_cons_of_mem _ hmem, hset, hfr⟩
      · intro tid
        rw [hFiff tid]
        constructor
        · rintro ⟨hr, hn⟩
          have hne : tid ≠ t0 := by
            intro hh
            subst hh
            rw [hlk1] at hn
            cases hn
          rw [lookupA_insertA_ne hne] at hn
          exact ⟨List.mem_cons_of_mem _ hr, hn⟩
        · rintro ⟨hmem, hnone⟩
          have hne : tid ≠ t0 := by
            intro hh
            subst hh
            rw [he] at hnone
            cases hnone
          refine ⟨?_, ?_⟩
          · rcases List.mem_cons.mp hmem with h1 | h1
            · exact absurd h1 hne
            · exact h1
          · rw [lookupA_insertA_ne hne]
            exact hnone

theorem mem_insertA_sub {α β : Type} [DecidableEq α] {l : List (α × β)} {k : α}
    {v : β} {e : α × β} (h : e ∈ insertA l k v) : e ∈ l ∨ e = (k, v) := by
  induction l with
  | nil =>
    rw [insertA] at h
    rcases List.mem_singleton.mp h with rfl
    exact Or.inr rfl
  | cons e1 rest ih =>
    obtain ⟨a, b⟩ := e1
    rw [insertA] at h
    by_cases hk : a = k
    · rw [if_pos hk] at h
      rcases List.mem_cons.mp h with rfl | h
      · exact Or.inr rfl
      · exact Or.inl (List.mem_cons_of_mem _ h)
    · rw [if_neg hk] at h
      rcases List.mem_cons.mp h with rfl | h
      · exact Or.inl (List.mem_cons_self _ _)
      · rcases ih h with h2 | h2
        · exact Or.inl (List.mem_cons_of_mem _ h2)
        · exact Or.inr h2

theorem remove_tx_step_absent {cid : Nat} {tx : List (Nat × (Nat × List Nat))}
    {tid : Nat} (h : lookupA tx tid = none) : remove_tx_step cid tx tid = tx := by
  rw [remove_tx_step, h]

theorem remove_tx_step_present {cid : Nat} {tx : List (Nat × (Nat × List Nat))}
    {tid : Nat} {e : Nat × List Nat} (he : lookupA tx tid = some e) :
    remove_tx_step cid tx tid =
      (if (swapRemoveP (fun c => decide (c = cid)) e.2).isEmpty then
        swapRemoveA (insertA tx tid
          (e.1, swapRemoveP (fun c => decide (c = cid)) e.2)) tid
      else insertA tx tid
        (e.1, swapRemoveP (fun c => decide (c = cid)) e.2)) := by
  rw [remove_tx_step, he]

theorem remove_tx_step_keys_nodup {cid : Nat} {tx : List (Nat × (Nat × List Nat))}
    {tid : Nat} (hk : (keysOf tx).Nodup) :
    (keysOf (remove_tx_step cid tx tid)).Nodup := by
  rcases he : lookupA tx tid with _ | e
  · rw [remove_tx_step_absent he]
    exact hk
  · rw [remove_tx_step_present he]
    split
    · exact nodup_keys_swapRemoveA (nodup_keys_insertA hk)
    · exact nodup_keys_insertA hk

theorem remove_tx_step_sets_nodup {cid : Nat} {tx : List (Nat × (Nat × List Nat))}
    {tid : Nat} (hv : ∀ k t cids, (k, (t, cids)) ∈ tx → cids.Nodup) :
    ∀ k t cids, (k, (t, cids)) ∈ remove_tx_step cid tx tid → cids.Nodup := by
  intro k t cids hmem
  rcases he : lookupA tx tid with _ | e
  · rw [remove_tx_step_absent he] at hmem
    exact hv _ _ _ hmem
  · rw [remove_tx_step_present he] at hmem
    have hnd2 : ((swapRemoveP (fun c => decide (c = cid)) e.2)).Nodup := by
      obtain ⟨t0, cids0⟩ := e
      exact nodup_swapRemoveP (hv _ _ _ (lookupA_mem he))
    split at hmem
    · have hmem2 := mem_swapRemoveP_sub hmem
      rcases mem_insertA_sub hmem2 with h2 | h2
      · exact hv _ _ _ h2
      · injection h2 with h2a h2b
        injection h2b with h2c h2d
        subst h2d
        exact hnd2
    · rcases mem_insertA_sub hmem with h2 | h2
      · exact hv _ _ _ h2
      · injection h2 with h2a h2b
        injection h2b with h2c h2d
        subst h2d
        exact hnd2

theorem remove_tx_step_lookup_ne {cid : Nat} {tx : List (Nat × (Nat × List Nat))}
    {tid k : Nat} (hk : (keysOf tx).Nodup) (hne : k ≠ tid) :
    lookupA (remove_tx_step cid tx tid) k = lookupA tx k := by
  rcases he : lookupA tx tid with _ | e
  · rw [remove_tx_step_absent he]
  · rw [remove_tx_step_present he]
    split
    · rw [lookupA_swapRemoveA_ne (nodup_keys_insertA hk) hne,
        lookupA_insertA_ne hne]
    · rw [lookupA_insertA_ne hne]

theorem remove_tx_step_none_mono {cid : Nat} {tx : List (Nat × (Nat × List Nat))}
    {tid k : Nat} (hk : (keysOf tx).Nodup) (h : lookupA tx k = none) :
    lookupA (remove_tx_step cid tx tid) k = none := by
  by_cases hne : k = tid
  · subst hne
    rw [remove_tx_step_absent h]
    exact h
  · rw [remove_tx_step_lookup_ne hk hne]
    exact h

theorem remove_tx_step_lookup_self {cid : Nat} {tx : List (Nat × (Nat × List Nat))}
    {tid t : Nat} {cids : List Nat} (hk : (keysOf tx).Nodup) (hnd : cids.Nodup)
    (he : lookupA tx tid = some (t, cids)) :
    ((∃ c ∈ cids, c ≠ cid) →
      lookupA (remove_tx_step cid tx tid) tid =
        some (t, swapRemoveP (fun c => decide (c = cid)) cids)) ∧
    ((∀ c ∈ cids, c = cid) → lookupA (remove_tx_step cid tx tid) tid = none) := by
  rw [remove_tx_step_present he]
  constructor
  · intro hex
    have hne : ¬ (swapRemoveP (fun c => decide (c = cid)) cids).isEmpty = true := by
      rw [List.isEmpty_iff]
      rw [swapRemoveC_eq_nil_iff hnd]
      intro hall
      obtain ⟨c, hc, hcne⟩ := hex
      exact hcne (hall c hc)
    rw [if_neg hne]
    exact lookupA_insertA_self
  · intro hall
    have hemp : (swapRemoveP (fun c => decide (c = cid)) cids).isEmpty = true := by
      rw [List.isEmpty_iff]
      exact (swapRemoveC_eq_nil_iff hnd).mpr hall
    rw [if_pos hemp]
    exact lookupA_swapRemoveA_self (nodup_keys_insertA hk)

theorem remove_tx_spec (cid : Nat) (tids : List Nat)
    (tx : List (Nat × (Nat × List Nat)))
    (hk : (keysOf tx).Nodup)
    (hv : ∀ k t cids, (k, (t, cids)) ∈ tx → cids.Nodup) :
    ((keysOf (remove_tx cid tx tids)).Nodup) ∧
    (∀ k t cids, (k, (t, cids)) ∈ remove_tx cid tx tids → cids.Nodup) ∧
    (∀ k, k ∉ tids → lookupA (remove_tx cid tx tids) k = lookupA tx k) ∧
    (∀ k, lookupA tx k = none → lookupA (remove_tx cid tx tids) k = none) ∧
    (∀ k, k ∈ tids → ∀ t cids, lookupA tx k = some (t, cids) →
      ((∃ c ∈ cids, c ≠ cid) →
        ∃ cids2, lookupA (remove_tx cid tx tids) k = some (t, cids2) ∧
          ∀ c, (c ∈ cids2 ↔ c ∈ cids ∧ c ≠ cid)) ∧
      ((∀ c ∈ cids, c = cid) → lookupA (remove_tx cid tx tids) k = none)) := by
  induction tids generalizing tx with
  | nil =>
    refine ⟨hk, hv, fun k _ => rfl, fun k h => h, fun k hku => absurd hku (by simp)⟩
  | cons t0 rest ih =>
    have hstep : remove_tx cid tx (t0 :: rest) =
        remove_tx cid (remove_tx_step cid tx t0) rest := rfl
    have hk1 : (keysOf (remove_tx_step cid tx t0)).Nodup :=
      remove_tx_step_keys_nodup hk
    have hv1 : ∀ k t cids, (k, (t, cids)) ∈ remove_tx_step cid tx t0 → cids.Nodup :=
      remove_tx_step_sets_nodup hv
    obtain ⟨ih1, ih2, ih3, ih4, ih5⟩ := ih (remove_tx_step cid tx t0) hk1 hv1
    rw [hstep]
    refine ⟨ih1, ih2, ?_, ?_, ?_⟩
    · intro k hku
      have hne : k ≠ t0 := fun hh => hku (hh ▸ List.mem_cons_self _ _)
      have hnr : k ∉ rest := fun hh => hku (List.mem_cons_of_mem _ hh)
      rw [ih3 k hnr, remove_tx_step_lookup_ne hk hne]
    · intro k hnone
      exact ih4 k (remove_tx_step_none_mono hk hnone)
    · intro k hku t cids he
      have hndc : cids.Nodup := hv _ _ _ (lookupA_mem he)
      by_cases hkt : k = t0
      · subst hkt
        have hself : ((∃ c ∈ cids, c ≠ cid) →
            lookupA (remove_tx_step cid tx k) k =
              some (t, swapRemoveP (fun c => decide (c = cid)) cids)) ∧
            ((∀ c ∈ cids, c = cid) →
              lookupA (remove_tx_step cid tx k) k = none) :=
          remove_tx_step_lookup_self hk hndc he
        constructor
        · intro hex
          have hs1 := hself.1 hex
          by_cases hkr : k ∈ rest
          · obtain ⟨c0, hc0, hc0ne⟩ := hex
            have hc0m : c0 ∈ swapRemoveP (fun c => decide (c = cid)) cids :=
              (mem_swapRemoveC_iff hndc).mpr ⟨hc0, hc0ne⟩
            have hex2 : ∃ c ∈ swapRemoveP (fun c => decide (c = cid)) cids, c ≠ cid :=
              ⟨c0, hc0m, hc0ne⟩
            obtain ⟨cids2, hl2, hchar⟩ := (ih5 k hkr t _ hs1).1 hex2
            refine ⟨cids2, hl2, ?_⟩
            intro c
            rw [hchar c, mem_swapRemoveC_iff hndc]
            constructor
            · rintro ⟨⟨h1, h2⟩, _⟩
              exact ⟨h1, h2⟩
            · rintro ⟨h1, h2⟩
              exact ⟨⟨h1, h2⟩, h2⟩
          · refine ⟨swapRemoveP (fun c => decide (c = cid)) cids, ?_, ?_⟩
            · rw [ih3 k hkr]
              exact hs1
            · intro c
              exact mem_swapRemoveC_iff hndc
        · intro hall
          exact ih4 k (hself.2 hall)
      · have hkr : k ∈ rest := by
          rcases List.mem_cons.mp hku with h1 | h1
          · exact absurd h1 hkt
          · exact h1
        have he1 : lookupA (remove_tx_step cid tx t0) k = some (t, cids) := by
          rw [remove_tx_step_lookup_ne hk hkt]
          exact he
        exact ih5 k hkr t cids he1

theorem remove_certificate_absent {s : Storage} {cid : Nat}
    (h : lookupA s.certificates cid = none) :
    s.remove_certificate cid = (false, s) := by
  rw [Storage.remove_certificate, Storage.get_certificate, h]

theorem remove_certificate_present {s : Storage} {cid : Nat}
    {cert : BatchCertificate} (h : lookupA s.certificates cid = some cert) :
    s.remove_certificate cid =
      (true,
        { s with
          rounds := roundsRemove s.rounds cert.round
            (cid, cert.batch_id, cert.author),
          certificates := swapRemoveA s.certificates cid,
          batch_ids := swapRemoveA s.batch_ids cert.batch_id,
          transmissions := remove_tx cid s.transmissions
            cert.transmission_ids }) := by
  rw [Storage.remove_certificate, Storage.get_certificate, h]

theorem roundsRemove_keys_nodup {l : List (Nat × List (Nat × Nat × Nat))}
    {r : Nat} {t : Nat × Nat × Nat} (hk : (keysOf l).Nodup) :
    (keysOf (roundsRemove l r t)).Nodup := by
  rw [roundsRemove]
  rcases hl : lookupA l r with _ | es
  · simp only []
    have hk1 : (keysOf (l ++ [(r, ([] : List (Nat × Nat × Nat)))])).Nodup := by
      rw [keysOf, List.map_append, List.nodup_append]
      refine ⟨hk, by simp, ?_⟩
      intro x hx hx2
      simp only [List.map_cons, List.map_nil, List.mem_singleton] at hx2
      subst hx2
      exact (lookupA_eq_none_iff.mp hl) hx
    split
    · split
      · exact nodup_keys_swapRemoveA hk1
      · exact hk1
    · exact hk1
  · simp only []
    have hk1 : (keysOf (insertA l r
        (swapRemoveP (fun e => decide (e = t)) es))).Nodup :=
      nodup_keys_insertA hk
    split
    · split
      · exact nodup_keys_swapRemoveA hk1
      · exact hk1
    · exact hk1

theorem roundsRemove_lookup_ne {l : List (Nat × List (Nat × Nat × Nat))}
    {r r2 : Nat} {t : Nat × Nat × Nat} (hk : (keysOf l).Nodup) (hne : r2 ≠ r) :
    lookupA (roundsRemove l r t) r2 = lookupA l r2 := by
  rw [roundsRemove]
  rcases hl : lookupA l r with _ | es
  · simp only []
    have hbase : lookupA (l ++ [(r, ([] : List (Nat × Nat × Nat)))]) r2 =
        lookupA l r2 := by
      rcases h2 : lookupA l r2 with _ | v
      · rw [lookupA_append_of_none h2, lookupA, if_neg (fun hh => hne hh.symm)]
        rfl
      · exact lookupA_append_of_some h2
    have hk1 : (keysOf (l ++ [(r, ([] : List (Nat × Nat × Nat)))])).Nodup := by
      rw [keysOf, List.map_append, List.nodup_append]
      refine ⟨hk, by simp, ?_⟩
      intro x hx hx2
      simp only [List.map_cons, List.map_nil, List.mem_singleton] at hx2
      subst hx2
      exact (lookupA_eq_none_iff.mp hl) hx
    split
    · split
      · rw [lookupA_swapRemoveA_ne hk1 hne, hbase]
      · exact hbase
    · exact hbase
  · simp only []
    have hbase : lookupA (insertA l r
        (swapRemoveP (fun e => decide (e = t)) es)) r2 = lookupA l r2 :=
      lookupA_insertA_ne hne
    have hk1 : (keysOf (insertA l r
        (swapRemoveP (fun e => decide (e = t)) es))).Nodup :=
      nodup_keys_insertA hk
    split
    · split
      · rw [lookupA_swapRemoveA_ne hk1 hne, hbase]
      · exact hbase
    · exact hbase

theorem roundsRemove_lookup_self_none {l : List (Nat × List (Nat × Nat × Nat))}
    {r : Nat} {t : Nat × Nat × Nat} (hk : (keysOf l).Nodup)
    (hl : lookupA l r = none) :
    lookupA (roundsRemove l r t) r = none := by
  rw [roundsRemove]
  rcases hl2 : lookupA l r with _ | es
  · simp only []
    have hk1 : (keysOf (l ++ [(r, ([] : List (Nat × Nat × Nat)))])).Nodup := by
      rw [keysOf, List.map_append, List.nodup_append]
      refine ⟨hk, by simp, ?_⟩
      intro x hx hx2
      simp only [List.map_cons, List.map_nil, List.mem_singleton] at hx2
      subst hx2
      exact (lookupA_eq_none_iff.mp hl) hx
    have hself : lookupA (l ++ [(r, ([] : List (Nat × Nat × Nat)))]) r =
        some [] := by
      rw [lookupA_append_of_none hl, lookupA]
      simp
    rw [hself]
    simp only [List.isEmpty_nil, if_true]
    exact lookupA_swapRemoveA_self hk1
  · rw [hl] at hl2
    cases hl2

theorem roundsRemove_lookup_self_some {l : List (Nat × List (Nat × Nat × Nat))}
    {r : Nat} (t : Nat × Nat × Nat) {es : List (Nat × Nat × Nat)}
    (hk : (keysOf l).Nodup) (hl : lookupA l r = some es) :
    (swapRemoveP (fun e => decide (e = t)) es = [] →
      lookupA (roundsRemove l r t) r = none) ∧
    (swapRemoveP (fun e => decide (e = t)) es ≠ [] →
      lookupA (roundsRemove l r t) r =
        some (swapRemoveP (fun e => decide (e = t)) es)) := by
  rw [roundsRemove]
  rcases hl2 : lookupA l r with _ | es2
  · rw [hl] at hl2
    cases hl2
  · rw [hl] at hl2
    injection hl2 with hl2
    subst hl2
    simp only []
    have hk1 : (keysOf (insertA l r
        (swapRemoveP (fun e => decide (e = t)) es))).Nodup :=
      nodup_keys_insertA hk
    have hself : lookupA (insertA l r
        (swapRemoveP (fun e => decide (e = t)) es)) r =
        some (swapRemoveP (fun e => decide (e = t)) es) := lookupA_insertA_self
    simp only [hself]
    constructor
    · intro hemp
      rw [hemp]
      simp only [List.isEmpty_nil, if_true]
      rw [hemp] at hk1
      exact lookupA_swapRemoveA_self hk1
    · intro hne
      have hcond : ¬ ((swapRemoveP (fun e => decide (e = t)) es).isEmpty = true) := by
        rw [List.isEmpty_iff]
        exact hne
      rw [if_neg hcond]
      exact hself

theorem stinv_new (committee : Committee) (mgc : Nat) :
    StInv (Storage.new committee mgc) := by
  refine ⟨?_, ?_, ?_, ?_, ?_, ?_, ?_, ?_, ?_, ?_, ?_, ?_, ?_⟩
  · simp [Storage.new, keysOf]
  · simp [Storage.new, keysOf]
  · simp [Storage.new, keysOf]
  · simp [Storage.new, keysOf]
  · simp [Storage.new, keysOf]
  · intro r es h
    simp [Storage.new] at h
  · intro r es h
    simp [Storage.new] at h
  · intro r es h
    simp [Storage.new] at h
  · intro tid t cids h
    simp [Storage.new] at h
  · intro cid cert h
    simp [Storage.new] at h
  · intro r es h
    simp [Storage.new] at h
  · intro tid
    constructor
    · intro t cids h
      simp [Storage.new, lookupA] at h
    · constructor
      · intro h
        simp [Storage.new, lookupA] at h
      · rintro ⟨c, cert, hc, -⟩
        simp [Storage.new, lookupA] at hc
  · simp [Storage.new, lookupA]

theorem stinv_remove (s : Storage) (cid : Nat) (hs : StInv s) :
    StInv (s.remove_certificate cid).2 := by
  rcases hcert : lookupA s.certificates cid with _ | cert
  · rw [remove_certificate_absent hcert]
    exact hs
  rw [remove_certificate_present hcert]
  have hv : ∀ k t cids, (k, (t, cids)) ∈ s.transmissions → cids.Nodup :=
    hs.tsets_nodup
  obtain ⟨sp1, sp2, sp3, sp4, sp5⟩ :=
    remove_tx_spec cid cert.transmission_ids s.transmissions hs.ndt hv
  have hcidcert : cert.certificate_id = cid :=
    hs.cid_coherent cid cert (lookupA_mem hcert)
  have hcertuniq : ∀ c2, (cid, c2) ∈ s.certificates → c2 = cert := by
    intro c2 hmem
    have := lookupA_of_mem_nodup hs.ndx hmem
    rw [hcert] at this
    injection this with this
    exact this.symm
  have hrefs1 : ∀ tid c,
      refsTid { s with
          rounds := roundsRemove s.rounds cert.round (cid, cert.batch_id, cert.author),
          certificates := swapRemoveA s.certificates cid,
          batch_ids := swapRemoveA s.batch_ids cert.batch_id,
          transmissions := remove_tx cid s.transmissions cert.transmission_ids }
        tid c ↔ (c ≠ cid ∧ refsTid s tid c) := by
    intro tid c
    rw [refsTid, refsTid]
    simp only []
    constructor
    · rintro ⟨c2, hl, htid⟩
      have hne : c ≠ cid := by
        intro hh
        subst hh
        rw [lookupA_swapRemoveA_self hs.ndx] at hl
        cases hl
      rw [lookupA_swapRemoveA_ne hs.ndx hne] at hl
      exact ⟨hne, c2, hl, htid⟩
    · rintro ⟨hne, c2, hl, htid⟩
      rw [← lookupA_swapRemoveA_ne hs.ndx hne] at hl
      exact ⟨c2, hl, htid⟩
  refine ⟨hs.ndc, roundsRemove_keys_nodup hs.ndr, nodup_keys_swapRemoveA hs.ndx,
    nodup_keys_swapRemoveA hs.ndb, sp1, ?_, ?_, ?_, sp2, ?_, ?_, ?_, hs.cur_comm⟩
  · -- rsets_nodup
    intro r es hmem
    have hl := lookupA_of_mem_nodup (roundsRemove_keys_nodup hs.ndr) hmem
    by_cases hr : r = cert.round
    · subst hr
      rcases ho : lookupA s.rounds cert.round with _ | es0
      · rw [roundsRemove_lookup_self_none hs.ndr ho] at hl
        cases hl
      · have hsp := roundsRemove_lookup_self_some (cid, cert.batch_id, cert.author) hs.ndr ho
        by_cases hemp : swapRemoveP (fun e => decide
            (e = (cid, cert.batch_id, cert.author))) es0 = []
        · rw [hsp.1 hemp] at hl
          cases hl
        · rw [hsp.2 hemp] at hl
          injection hl with hl
          subst hl
          exact nodup_swapRemoveP (hs.rsets_nodup cert.round es0 (lookupA_mem ho))
    · rw [roundsRemove_lookup_ne hs.ndr hr] at hl
      exact hs.rsets_nodup r es (lookupA_mem hl)
  · -- rsets_nonempty
    intro r es hmem
    have hl := lookupA_of_mem_nodup (roundsRemove_keys_nodup hs.ndr) hmem
    by_cases hr : r = cert.round
    · subst hr
      rcases ho : lookupA s.rounds cert.round with _ | es0
      · rw [roundsRemove_lookup_self_none hs.ndr ho] at hl
        cases hl
      · have hsp := roundsRemove_lookup_self_some (cid, cert.batch_id, cert.author) hs.ndr ho
        by_cases hemp : swapRemoveP (fun e => decide
            (e = (cid, cert.batch_id, cert.author))) es0 = []
        · rw [hsp.1 hemp] at hl
          cases hl
        · rw [hsp.2 hemp] at hl
          injection hl with hl
          subst hl
          exact hemp
    · rw [roundsRemove_lookup_ne hs.ndr hr] at hl
      exact hs.rsets_nonempty r es (lookupA_mem hl)
  · -- rounds_pos
    intro r es hmem
    have hl := lookupA_of_mem_nodup (roundsRemove_keys_nodup hs.ndr) hmem
    by_cases hr : r = cert.round
    · subst hr
      rcases ho : lookupA s.rounds cert.round with _ | es0
      · rw [roundsRemove_lookup_self_none hs.ndr ho] at hl
        cases hl
      · exact hs.rounds_pos cert.round es0 (lookupA_mem ho)
    · rw [roundsRemove_lookup_ne hs.ndr hr] at hl
      exact hs.rounds_pos r es (lookupA_mem hl)
  · -- cid_coherent
    intro c2 cert2 hmem
    exact hs.cid_coherent c2 cert2 ((mem_swapRemoveA_iff hs.ndx).mp hmem).1
  · -- agree_rc
    intro r es hmem e he
    have hl := lookupA_of_mem_nodup (roundsRemove_keys_nodup hs.ndr) hmem
    by_cases hr : r = cert.round
    · subst hr
      rcases ho : lookupA s.rounds cert.round with _ | es0
      · rw [roundsRemove_lookup_self_none hs.ndr ho] at hl
        cases hl
      · have hsp := roundsRemove_lookup_self_some (cid, cert.batch_id, cert.author) hs.ndr ho
        by_cases hemp : swapRemoveP (fun e => decide
            (e = (cid, cert.batch_id, cert.author))) es0 = []
        · rw [hsp.1 hemp] at hl
          cases hl
        · rw [hsp.2 hemp] at hl
          injection hl with hl
          subst hl
          have hchar := (mem_swapRemoveC_iff
            (hs.rsets_nodup cert.round es0 (lookupA_mem ho))).mp he
          obtain ⟨cert2, hc2, hrnd, hbid, hauth⟩ :=
            hs.agree_rc cert.round es0 (lookupA_mem ho) e hchar.1
          have hne : e.1 ≠ cid := by
            intro hh
            rw [hh] at hc2
            have := hcertuniq cert2 hc2
            subst this
            apply hchar.2
            obtain ⟨e1, e2, e3⟩ := e
            simp only [] at hh hbid hauth ⊢
            rw [hh, ← hbid, ← hauth]
          refine ⟨cert2, (mem_swapRemoveA_iff hs.ndx).mpr ⟨hc2, hne⟩,
            hrnd, hbid, hauth⟩
    · rw [roundsRemove_lookup_ne hs.ndr hr] at hl
      obtain ⟨cert2, hc2, hrnd, hbid, hauth⟩ :=
        hs.agree_rc r es (lookupA_mem hl) e he
      have hne : e.1 ≠ cid := by
        intro hh
        rw [hh] at hc2
        have := hcertuniq cert2 hc2
        subst this
        rw [hrnd] at hr
        exact hr rfl
      exact ⟨cert2, (mem_swapRemoveA_iff hs.ndx).mpr ⟨hc2, hne⟩,
        hrnd, hbid, hauth⟩
  · -- tx_agree
    intro tid
    have hIH := hs.tx_agree tid
    by_cases htid : tid ∈ cert.transmission_ids
    · have hrefcid : refsTid s tid cid := ⟨cert, hcert, htid⟩
      have hsome : (lookupA s.transmissions tid).isSome = true :=
        hIH.2.mpr ⟨cid, hrefcid⟩
      rcases hold : lookupA s.transmissions tid with _ | e0
      · rw [hold] at hsome
        cases hsome
      obtain ⟨t0, cids0⟩ := e0
      have hcidmem : cid ∈ cids0 := (hIH.1 t0 cids0 hold cid).mpr hrefcid
      by_cases hex : ∃ c ∈ cids0, c ≠ cid
      · obtain ⟨cids2, hl2, hchar⟩ := (sp5 tid htid t0 cids0 hold).1 hex
        constructor
        · intro t cids hl3
          rw [hl2] at hl3
          injection hl3 with hl3
          injection hl3 with hl3a hl3b
          subst hl3a
          subst hl3b
          intro c
          rw [hchar c, hrefs1 tid c]
          rw [hIH.1 t0 cids0 hold c]
          constructor
          · rintro ⟨h1, h2⟩
            exact ⟨h2, h1⟩
          · rintro ⟨h1, h2⟩
            exact ⟨h2, h1⟩
        · rw [hl2]
          simp only [Option.isSome_some, true_iff]
          obtain ⟨c0, hc0, hc0ne⟩ := hex
          refine ⟨c0, (hrefs1 tid c0).mpr ⟨hc0ne, ?_⟩⟩
          exact (hIH.1 t0 cids0 hold c0).mp hc0
      · have hall : ∀ c ∈ cids0, c = cid := by
          intro c hc
          by_contra hne
          exact hex ⟨c, hc, hne⟩
        have hl2 := (sp5 tid htid t0 cids0 hold).2 hall
        constructor
        · intro t cids hl3
          rw [hl2] at hl3
          cases hl3
        · rw [hl2]
          simp only [Option.isSome_none, Bool.false_eq_true, false_iff]
          rintro ⟨c, hc⟩
          rw [hrefs1 tid c] at hc
          have := (hIH.1 t0 cids0 hold c).mpr hc.2
          exact hc.1 (hall c this)
    · have hlkeq : lookupA (remove_tx cid s.transmissions cert.transmission_ids)
          tid = lookupA s.transmissions tid := sp3 tid htid
      constructor
      · intro t cids hl3
        rw [hlkeq] at hl3
        intro c
        rw [hIH.1 t cids hl3 c, hrefs1 tid c]
        constructor
        · intro h1
          refine ⟨?_, h1⟩
          intro hh
          subst hh
          obtain ⟨c2, hc2, htid2⟩ := h1
          rw [hcert] at hc2
          injection hc2 with hc2
          subst hc2
          exact htid htid2
        · rintro ⟨h1, h2⟩
          exact h2
      · rw [hlkeq, hIH.2]
        constructor
        · rintro ⟨c, hc⟩
          refine ⟨c, (hrefs1 tid c).mpr ⟨?_, hc⟩⟩
          intro hh
          subst hh
          obtain ⟨c2, hc2, htid2⟩ := hc
          rw [hcert] at hc2
          injection hc2 with hc2
          subst hc2
          exact htid htid2
        · rintro ⟨c, hc⟩
          exact ⟨c, ((hrefs1 tid c).mp hc).2⟩

theorem insert_tx_covers {cid : Nat} {tids : List Nat}
    {tx missing : List _} {out : List _ × List _}
    (h : insert_tx cid tids (tx, missing) = some out) :
    ∀ tid ∈ tids, lookupA tx tid = none → (lookupA missing tid).isSome = true := by
  induction tids generalizing tx missing with
  | nil => simp
  | cons t0 rest ih =>
    intro tid htid hnone
    rw [insert_tx] at h
    rcases he : lookupA tx t0 with _ | e
    · rw [he] at h
      rcases hm : lookupA missing t0 with _ | tv
      · rw [hm] at h
        cases h
      · rw [hm] at h
        by_cases hne : tid = t0
        · subst hne
          rw [hm]
          rfl
        · have htid2 : tid ∈ rest := by
            rcases List.mem_cons.mp htid with h1 | h1
            · exact absurd h1 hne
            · exact h1
          have hnone2 : lookupA (tx ++ [(t0, (tv, insertS [] cid))]) tid = none := by
            rw [lookupA_append_of_none hnone, lookupA,
              if_neg (fun hh => hne hh.symm)]
            rfl
          have := ih h tid htid2 hnone2
          rcases hr : lookupA (removeA missing t0) tid with _ | v
          · rw [hr] at this
            cases this
          · have hmem := mem_removeA_sub (lookupA_mem hr)
            rw [lookupA_isSome_iff]
            exact List.mem_map_of_mem Prod.fst hmem
    · rw [he] at h
      by_cases hne : tid = t0
      · subst hne
        rw [he] at hnone
        cases hnone
      · have htid2 : tid ∈ rest := by
          rcases List.mem_cons.mp htid with h1 | h1
          · exact absurd h1 hne
          · exact h1
        have hnone2 : lookupA (insertA tx t0 (e.1, insertS e.2 cid)) tid = none := by
          rw [lookupA_insertA_ne (fun hh => hne hh)]
          exact hnone
        exact ih h tid htid2 hnone2


theorem insertS_ne_nil {α : Type} [DecidableEq α] {l : List α} {a : α} :
    insertS l a ≠ [] := by
  rw [insertS]
  split
  · rename_i h
    intro hnil
    rw [hnil] at h
    cases h
  · simp

theorem roundsInsert_keys_nodup {l : List (Nat × List (Nat × Nat × Nat))}
    {r : Nat} {t : Nat × Nat × Nat} (hk : (keysOf l).Nodup) :
    (keysOf (roundsInsert l r t)).Nodup := by
  rw [roundsInsert]
  rcases hl : lookupA l r with _ | es
  · simp only []
    rw [keysOf, List.map_append, List.nodup_append]
    refine ⟨hk, by simp, ?_⟩
    intro x hx hx2
    simp only [List.map_cons, List.map_nil, List.mem_singleton] at hx2
    subst hx2
    exact (lookupA_eq_none_iff.mp hl) hx
  · exact nodup_keys_insertA hk

theorem roundsInsert_lookup_ne {l : List (Nat × List (Nat × Nat × Nat))}
    {r r2 : Nat} {t : Nat × Nat × Nat} (hne : r2 ≠ r) :
    lookupA (roundsInsert l r t) r2 = lookupA l r2 := by
  rw [roundsInsert]
  rcases hl : lookupA l r with _ | es
  · simp only []
    rcases h2 : lookupA l r2 with _ | v
    · rw [lookupA_append_of_none h2, lookupA, if_neg (fun hh => hne hh.symm)]
      rfl
    · exact lookupA_append_of_some h2
  · exact lookupA_insertA_ne hne

theorem roundsInsert_lookup_self {l : List (Nat × List (Nat × Nat × Nat))}
    {r : Nat} {t : Nat × Nat × Nat} :
    lookupA (roundsInsert l r t) r =
      some (insertS ((lookupA l r).getD []) t) := by
  rw [roundsInsert]
  rcases hl : lookupA l r with _ | es
  · simp only [Option.getD_none]
    rw [lookupA_append_of_none hl, lookupA]
    simp
  · simp only [Option.getD_some]
    exact lookupA_insertA_self

theorem stinv_insert_atomic (s s1 : Storage) (certificate : BatchCertificate)
    (missing : List (Nat × Nat)) (hs : StInv s)
    (hcid : lookupA s.certificates certificate.certificate_id = none)
    (hbid : lookupA s.batch_ids certificate.batch_id = none)
    (hpos : 1 ≤ certificate.round)
    (h : s.insert_certificate_atomic certificate missing = some s1) :
    StInv s1 := by
  simp only [Storage.insert_certificate_atomic] at h
  rcases htx : insert_tx certificate.certificate_id certificate.transmission_ids
      (s.transmissions, missing) with _ | txm
  · rw [htx] at h
    cases h
  rw [htx] at h
  injection h with h
  subst h
  have hcov := insert_tx_covers htx
  obtain ⟨F, m2, heq, hF, hFnd, hFiff⟩ := insert_tx_struct hs.ndt hcov
  rw [htx] at heq
  injection heq with heq
  have htx1 : txm.1 = s.transmissions.map
      (updOld certificate.transmission_ids certificate.certificate_id) ++ F := by
    rw [heq]
  rw [htx1]
  have hxc : ∀ c, lookupA (insertA s.certificates certificate.certificate_id
      certificate) c =
      if c = certificate.certificate_id then some certificate
      else lookupA s.certificates c := by
    intro c
    by_cases hc : c = certificate.certificate_id
    · subst hc
      rw [if_pos rfl]
      exact lookupA_insertA_self
    · rw [if_neg hc]
      exact lookupA_insertA_ne hc
  have hkeysA : keysOf (s.transmissions.map
      (updOld certificate.transmission_ids certificate.certificate_id)) =
      keysOf s.transmissions := keysOf_map_updOld _ _ _
  have hAnone : ∀ tid, lookupA s.transmissions tid = none →
      lookupA (s.transmissions.map
        (updOld certificate.transmission_ids certificate.certificate_id)) tid
        = none := by
    intro tid hnone
    rw [lookupA_map_updOld tid, hnone]
    rfl
  have hrefs1 : ∀ tid c,
      refsTid { s with
        rounds := roundsInsert s.rounds certificate.round
          (certificate.certificate_id, certificate.batch_id, certificate.author),
        certificates := insertA s.certificates certificate.certificate_id
          certificate,
        batch_ids := insertA s.batch_ids certificate.batch_id certificate.round,
        transmissions := s.transmissions.map
          (updOld certificate.transmission_ids certificate.certificate_id) ++ F }
        tid c ↔
      ((c = certificate.certificate_id ∧ tid ∈ certificate.transmission_ids) ∨
        (c ≠ certificate.certificate_id ∧ refsTid s tid c)) := by
    intro tid c
    rw [refsTid, refsTid]
    simp only []
    rw [hxc c]
    by_cases hc : c = certificate.certificate_id
    · rw [if_pos hc]
      subst hc
      constructor
      · rintro ⟨c2, hl, htid⟩
        injection hl with hl
        subst hl
        exact Or.inl ⟨rfl, htid⟩
      · rintro (⟨-, htid⟩ | ⟨hne, -⟩)
        · exact ⟨certificate, rfl, htid⟩
        · exact absurd rfl hne
    · rw [if_neg hc]
      constructor
      · rintro ⟨c2, hl, htid⟩
        exact Or.inr ⟨hc, c2, hl, htid⟩
      · rintro (⟨hcc, -⟩ | ⟨-, c2, hl, htid⟩)
        · exact absurd hcc hc
        · exact ⟨c2, hl, htid⟩
  refine ⟨hs.ndc, roundsInsert_keys_nodup hs.ndr, nodup_keys_insertA hs.ndx,
    nodup_keys_insertA hs.ndb, ?_, ?_, ?_, ?_, ?_, ?_, ?_, ?_, hs.cur_comm⟩
  · -- ndt
    rw [keysOf, List.map_append, List.nodup_append]
    rw [keysOf] at hkeysA
    refine ⟨by rw [hkeysA]; exact hs.ndt, hFnd, ?_⟩
    intro x hx hx2
    have hxF := (hFiff x).mp hx2
    rw [hkeysA] at hx
    rw [lookupA_eq_none_iff] at hxF
    exact hxF.2 hx
  · -- rsets_nodup
    intro r es hmem
    have hl := lookupA_of_mem_nodup (roundsInsert_keys_nodup hs.ndr) hmem
    by_cases hr : r = certificate.round
    · subst hr
      rw [roundsInsert_lookup_self] at hl
      injection hl with hl
      subst hl
      rcases ho : lookupA s.rounds certificate.round with _ | es0
      · simp only [ho, Option.getD_none]
        rw [insertS_nil]
        exact List.nodup_singleton _
      · simp only [ho, Option.getD_some]
        exact nodup_insertS (hs.rsets_nodup certificate.round es0 (lookupA_mem ho))
    · rw [roundsInsert_lookup_ne hr] at hl
      exact hs.rsets_nodup r es (lookupA_mem hl)
  · -- rsets_nonempty
    intro r es hmem
    have hl := lookupA_of_mem_nodup (roundsInsert_keys_nodup hs.ndr) hmem
    by_cases hr : r = certificate.round
    · subst hr
      rw [roundsInsert_lookup_self] at hl
      injection hl with hl
      subst hl
      exact insertS_ne_nil
    · rw [roundsInsert_lookup_ne hr] at hl
      exact hs.rsets_nonempty r es (lookupA_mem hl)
  · -- rounds_pos
    intro r es hmem
    have hl := lookupA_of_mem_nodup (roundsInsert_keys_nodup hs.ndr) hmem
    by_cases hr : r = certificate.round
    · subst hr
      exact hpos
    · rw [roundsInsert_lookup_ne hr] at hl
      exact hs.rounds_pos r es (lookupA_mem hl)
  · -- tsets_nodup
    intro tid t cids hmem
    rcases List.mem_append.mp hmem with hmem | hmem
    · obtain ⟨e0, he0, hupd⟩ := List.mem_map.mp hmem
      obtain ⟨k0, t0, cids0⟩ := e0
      rw [updOld] at hupd
      split at hupd
      · injection hupd with h1 h2
        injection h2 with h2a h2b
        subst h2b
        exact nodup_insertS (hs.tsets_nodup k0 t0 cids0 he0)
      · injection hupd with h1 h2
        injection h2 with h2a h2b
        subst h2b
        exact hs.tsets_nodup k0 t0 cids0 he0
    · have := (hF _ hmem).2.1
      simp only [] at this
      rw [this]
      exact List.nodup_singleton _
  · -- cid_coherent
    intro c cert2 hmem
    rcases mem_insertA_sub hmem with h2 | h2
    · exact hs.cid_coherent c cert2 h2
    · injection h2 with h2a h2b
      subst h2a
      subst h2b
      rfl
  · -- agree_rc
    intro r es hmem e he
    have hl := lookupA_of_mem_nodup (roundsInsert_keys_nodup hs.ndr) hmem
    by_cases hr : r = certificate.round
    · subst hr
      rw [roundsInsert_lookup_self] at hl
      injection hl with hl
      subst hl
      rw [mem_insertS] at he
      rcases he with he | he
      · rcases ho : lookupA s.rounds certificate.round with _ | es0
        · rw [ho] at he
          simp at he
        · rw [ho] at he
          simp only [Option.getD_some] at he
          obtain ⟨cert2, hc2, hrnd, hbidq, hauthq⟩ :=
            hs.agree_rc certificate.round es0 (lookupA_mem ho) e he
          refine ⟨cert2, ?_, hrnd, hbidq, hauthq⟩
          rw [insertA_of_lookupA_none certificate hcid]
          exact List.mem_append_left _ hc2
      · subst he
        refine ⟨certificate, ?_, rfl, rfl, rfl⟩
        exact lookupA_mem (by rw [hxc]; rw [if_pos rfl])
    · rw [roundsInsert_lookup_ne hr] at hl
      obtain ⟨cert2, hc2, hrnd, hbidq, hauthq⟩ :=
        hs.agree_rc r es (lookupA_mem hl) e he
      refine ⟨cert2, ?_, hrnd, hbidq, hauthq⟩
      have hne : e.1 ≠ certificate.certificate_id := by
        intro hh
        rw [hh] at hc2
        have := lookupA_of_mem_nodup hs.ndx hc2
        rw [hcid] at this
        cases this
      exact lookupA_mem (by rw [hxc, if_neg hne]; exact lookupA_of_mem_nodup hs.ndx hc2)
  · -- tx_agree
    intro tid
    have hIH := hs.tx_agree tid
    by_cases htid : tid ∈ certificate.transmission_ids
    · rcases hold : lookupA s.transmissions tid with _ | e0
      · -- fresh transmission: entry comes from F
        have hFk : tid ∈ keysOf F := (hFiff tid).mpr ⟨htid, hold⟩
        have hAn := hAnone tid hold
        have hsomeF : (lookupA F tid).isSome = true := lookupA_isSome_iff.mpr hFk
        rcases hFl : lookupA F tid with _ | vF
        · rw [hFl] at hsomeF
          cases hsomeF
        have hvF : vF.2 = [certificate.certificate_id] :=
          (hF _ (lookupA_mem hFl)).2.1
        have hlk : lookupA (s.transmissions.map
            (updOld certificate.transmission_ids certificate.certificate_id)
              ++ F) tid = some vF := by
          rw [lookupA_append_of_none hAn]
          exact hFl
        constructor
        · intro t cids hl3
          rw [hlk] at hl3
          injection hl3 with hl3
          intro c
          have hcids : cids = [certificate.certificate_id] := by
            rw [← hvF, hl3]
          rw [hcids, hrefs1 tid c]
          simp only [List.mem_singleton]
          constructor
          · intro hcc
            exact Or.inl ⟨hcc, htid⟩
          · rintro (⟨hcc, -⟩ | ⟨-, hrf⟩)
            · exact hcc
            · exfalso
              have := hIH.2.mpr ⟨c, hrf⟩
              rw [hold] at this
              cases this
        · rw [hlk]
          simp only [Option.isSome_some, true_iff]
          exact ⟨certificate.certificate_id, (hrefs1 tid _).mpr (Or.inl ⟨rfl, htid⟩)⟩
      · -- existing transmission entry gains the certificate id
        obtain ⟨t0, cids0⟩ := e0
        have hlk : lookupA (s.transmissions.map
            (updOld certificate.transmission_ids certificate.certificate_id)
              ++ F) tid =
            some (t0, insertS cids0 certificate.certificate_id) := by
          have := @lookupA_map_updOld certificate.transmission_ids
            certificate.certificate_id s.transmissions tid
          rw [hold] at this
          simp only [Option.map_some, if_pos htid] at this
          exact lookupA_append_of_some this
        constructor
        · intro t cids hl3
          rw [hlk] at hl3
          injection hl3 with hl3
          injection hl3 with hl3a hl3b
          subst hl3a
          subst hl3b
          intro c
          rw [mem_insertS, hrefs1 tid c]
          rw [hIH.1 t0 cids0 hold c]
          constructor
          · rintro (hcd | hcd)
            · by_cases hcc : c = certificate.certificate_id
              · exact Or.inl ⟨hcc, htid⟩
              · exact Or.inr ⟨hcc, hcd⟩
            · exact Or.inl ⟨hcd, htid⟩
          · rintro (⟨hcc, -⟩ | ⟨-, hrf⟩)
            · exact Or.inr hcc
            · exact Or.inl hrf
        · rw [hlk]
          simp only [Option.isSome_some, true_iff]
          exact ⟨certificate.certificate_id, (hrefs1 tid _).mpr (Or.inl ⟨rfl, htid⟩)⟩
    · -- undeclared transmission id: unchanged
      have hFn : lookupA F tid = none := by
        rw [lookupA_eq_none_iff]
        intro hk
        exact htid ((hFiff tid).mp hk).1
      rcases hold : lookupA s.transmissions tid with _ | e0
      · have hlk : lookupA (s.transmissions.map
            (updOld certificate.transmission_ids certificate.certificate_id)
              ++ F) tid = none := by
          rw [lookupA_append_of_none (hAnone tid hold)]
          exact hFn
        constructor
        · intro t cids hl3
          rw [hlk] at hl3
          cases hl3
        · rw [hlk]
          simp only [Option.isSome_none, Bool.false_eq_true, false_iff]
          rintro ⟨c, hc⟩
          rw [hrefs1 tid c] at hc
          rcases hc with ⟨-, htid2⟩ | ⟨-, hrf⟩
          · exact htid htid2
          · have := hIH.2.mpr ⟨c, hrf⟩
            rw [hold] at this
            cases this
      · obtain ⟨t0, cids0⟩ := e0
        have hlk : lookupA (s.transmissions.map
            (updOld certificate.transmission_ids certificate.certificate_id)
              ++ F) tid = some (t0, cids0) := by
          have := @lookupA_map_updOld certificate.transmission_ids
            certificate.certificate_id s.transmissions tid
          rw [hold] at this
          simp only [Option.map_some, if_neg htid] at this
          exact lookupA_append_of_some this
        constructor
        · intro t cids hl3
          rw [hlk] at hl3
          injection hl3 with hl3
          injection hl3 with hl3a hl3b
          subst hl3a
          subst hl3b
          intro c
          rw [hIH.1 t0 cids0 hold c, hrefs1 tid c]
          constructor
          · intro hrf
            refine Or.inr ⟨?_, hrf⟩
            intro hh
            subst hh
            obtain ⟨c2, hc2, htid2⟩ := hrf
            rw [hcid] at hc2
            cases hc2
          · rintro (⟨-, htid2⟩ | ⟨-, hrf⟩)
            · exact absurd htid2 htid
            · exact hrf
        · rw [hlk]
          simp only [Option.isSome_some, true_iff]
          have hsome : (lookupA s.transmissions tid).isSome = true := by
            rw [hold]
            rfl
          obtain ⟨c, hc⟩ := hIH.2.mp hsome
          refine ⟨c, (hrefs1 tid c).mpr (Or.inr ⟨?_, hc⟩)⟩
          intro hh
          subst hh
          obtain ⟨c2, hc2, -⟩ := hc
          rw [hcid] at hc2
          cases hc2

theorem check_batch_header_ok_batch {s : Storage} {lv : Int → Bool}
    {bh : BatchHeader} {provided out : List (Nat × Nat)}
    (h : s.check_batch_header lv bh provided = .ok out) :
    s.contains_batch bh.batch_id = false := by
  unfold Storage.check_batch_header at h
  by_cases hb : s.contains_batch bh.batch_id = true
  · rw [if_pos hb] at h
    exact Except.noConfusion h
  · simpa using hb

theorem stinv_insert (s s1 : Storage) (lv : Int → Bool)
    (certificate : BatchCertificate) (transmissions : List (Nat × Nat))
    (res : Except Err Unit) (hs : StInv s)
    (h : s.insert_certificate lv certificate transmissions = some (res, s1)) :
    StInv s1 := by
  unfold Storage.insert_certificate at h
  by_cases hgc : certificate.round ≤ s.gc_round
  · rw [if_pos hgc] at h
    injection h with h
    rw [Prod.mk.injEq] at h
    obtain ⟨-, h2⟩ := h
    rw [← h2]
    exact hs
  · rw [if_neg hgc] at h
    rcases hchk : s.check_certificate lv certificate transmissions with e | m
    · simp only [hchk] at h
      injection h with h
      rw [Prod.mk.injEq] at h
      obtain ⟨-, h2⟩ := h
      rw [← h2]
      exact hs
    · simp only [hchk] at h
      rcases hat : s.insert_certificate_atomic certificate m with _ | s2
      · simp only [hat] at h
        exact Option.noConfusion h
      · simp only [hat] at h
        injection h with h
        rw [Prod.mk.injEq] at h
        obtain ⟨-, h2⟩ := h
        rw [← h2]
        obtain ⟨h1, -, hbh, -⟩ := check_certificate_ok_inv hchk
        have hcid : lookupA s.certificates certificate.certificate_id = none :=
          containsA_eq_false_iff.mp h1
        have hbid : lookupA s.batch_ids certificate.batch_id = none :=
          containsA_eq_false_iff.mp (check_batch_header_ok_batch hbh)
        have hpos : 1 ≤ certificate.round := by omega
        exact stinv_insert_atomic s s2 certificate m hs hcid hbid hpos hat

theorem remove_certificate_frame (t : Storage) (cid : Nat) :
    (t.remove_certificate cid).2.current_round = t.current_round ∧
    (t.remove_certificate cid).2.committees = t.committees := by
  rcases h : lookupA t.certificates cid with _ | cert
  · rw [remove_certificate_absent h]
    exact ⟨rfl, rfl⟩
  · rw [remove_certificate_present h]
    exact ⟨rfl, rfl⟩

theorem stinv_remove_committee (s : Storage) (r : Nat) (hs : StInv s)
    (hr : r ≠ s.current_round) : StInv (s.remove_committee r) := by
  refine ⟨nodup_keys_swapRemoveA hs.ndc, hs.ndr, hs.ndx, hs.ndb, hs.ndt,
    hs.rsets_nodup, hs.rsets_nonempty, hs.rounds_pos, hs.tsets_nodup,
    hs.cid_coherent, hs.agree_rc, hs.tx_agree, ?_⟩
  show (lookupA (swapRemoveA s.committees r) s.current_round).isSome = true
  rw [lookupA_swapRemoveA_ne hs.ndc (Ne.symm hr)]
  exact hs.cur_comm

theorem stinv_rc_fold (L : List BatchCertificate) (t : Storage) (ht : StInv t) :
    StInv (L.foldl (fun u c => (u.remove_certificate c.certificate_id).2) t) ∧
    (L.foldl (fun u c => (u.remove_certificate c.certificate_id).2) t).current_round
      = t.current_round := by
  induction L generalizing t with
  | nil => exact ⟨ht, rfl⟩
  | cons c rest ih =>
    rw [List.foldl_cons]
    obtain ⟨hA, hB⟩ := ih (t.remove_certificate c.certificate_id).2
      (stinv_remove t c.certificate_id ht)
    exact ⟨hA, by rw [hB, (remove_certificate_frame t c.certificate_id).1]⟩

theorem stinv_gc_one (t : Storage) (r : Nat) (ht : StInv t)
    (hr : r ≠ t.current_round) :
    StInv (gc_one_round t r) ∧ (gc_one_round t r).current_round = t.current_round := by
  obtain ⟨h1, h2⟩ := stinv_rc_fold (t.get_certificates_for_round r) t ht
  constructor
  · exact stinv_remove_committee _ r h1 (by rw [h2]; exact hr)
  · show ((t.get_certificates_for_round r).foldl
      (fun u c => (u.remove_certificate c.certificate_id).2) t).current_round
        = t.current_round
    exact h2

theorem stinv_gc_fold (L : List Nat) (t : Storage) (ht : StInv t)
    (hL : ∀ r ∈ L, r ≠ t.current_round) :
    StInv (L.foldl gc_one_round t) ∧
    (L.foldl gc_one_round t).current_round = t.current_round := by
  induction L generalizing t with
  | nil => exact ⟨ht, rfl⟩
  | cons r rest ih =>
    rw [List.foldl_cons]
    obtain ⟨h1, h2⟩ := stinv_gc_one t r ht (hL r (List.mem_cons_self r rest))
    obtain ⟨hA, hB⟩ := ih (gc_one_round t r) h1
      (fun x hx => by rw [h2]; exact hL x (List.mem_cons_of_mem r hx))
    exact ⟨hA, by rw [hB, h2]⟩

theorem stinv_set_gc (t : Storage) (g : Nat) (ht : StInv t) :
    StInv { t with gc_round := g } :=
  ⟨ht.ndc, ht.ndr, ht.ndx, ht.ndb, ht.ndt, ht.rsets_nodup, ht.rsets_nonempty,
   ht.rounds_pos, ht.tsets_nodup, ht.cid_coherent, ht.agree_rc, ht.tx_agree,
   ht.cur_comm⟩

theorem stinv_advance (s s1 : Storage) (res : Except Err Unit) (hs : StInv s)
    (h : s.increment_committee_to_next_round = some (res, s1)) : StInv s1 := by
  unfold Storage.increment_committee_to_next_round at h
  rcases hcom : s.get_committee s.current_round with _ | committee
  · simp only [hcom] at h
    exact Option.noConfusion h
  simp only [hcom] at h
  by_cases hbusy : s.contains_certificates_for_round committee.to_next_round.round = true
  · rw [if_pos hbusy] at h
    injection h with h
    rw [Prod.mk.injEq] at h
    rw [← h.2]
    exact hs
  rw [if_neg hbusy] at h
  have hs1A : StInv { s with current_round := committee.to_next_round.round, committees := insertA s.committees committee.to_next_round.round committee.to_next_round } := by
    refine ⟨nodup_keys_insertA hs.ndc, hs.ndr, hs.ndx, hs.ndb, hs.ndt,
      hs.rsets_nodup, hs.rsets_nonempty, hs.rounds_pos, hs.tsets_nodup,
      hs.cid_coherent, hs.agree_rc, hs.tx_agree, ?_⟩
    show (lookupA (insertA s.committees committee.to_next_round.round
      committee.to_next_round) committee.to_next_round.round).isSome = true
    rw [lookupA_insertA_self]
    rfl
  generalize hsA : ({ s with current_round := committee.to_next_round.round, committees := insertA s.committees committee.to_next_round.round committee.to_next_round } : Storage) = sA at h hs1A
  have hcur : sA.current_round = committee.to_next_round.round := by
    rw [← hsA]
  by_cases hgc : committee.to_next_round.round - s.max_gc_rounds > s.gc_round
  · rw [if_pos hgc] at h
    have hL : ∀ r ∈ natRange s.gc_round (committee.to_next_round.round - s.max_gc_rounds),
        r ≠ sA.current_round := by
      intro r hr
      rw [mem_natRange (Nat.le_of_lt hgc)] at hr
      rw [hcur]
      have := Nat.sub_le committee.to_next_round.round s.max_gc_rounds
      omega
    have hS2 := (stinv_gc_fold
      (natRange s.gc_round (committee.to_next_round.round - s.max_gc_rounds)) sA hs1A hL).1
    have hfin := stinv_set_gc _ (committee.to_next_round.round - s.max_gc_rounds) hS2
    split at h <;>
    · injection h with h
      rw [Prod.mk.injEq] at h
      rw [← h.2]
      exact hfin
  · rw [if_neg hgc] at h
    split at h <;>
    · injection h with h
      rw [Prod.mk.injEq] at h
      rw [← h.2]
      exact hs1A

theorem stinv_of_reachable {s : Storage} (h : Reachable s) : StInv s := by
  induction h with
  | init committee max_gc_rounds => exact stinv_new committee max_gc_rounds
  | insert s s1 lv certificate transmissions r hs h ih =>
    exact stinv_insert s s1 lv certificate transmissions r ih h
  | remove s certificate_id hs ih => exact stinv_remove s certificate_id ih
  | advance s s1 r hs h ih => exact stinv_advance s s1 r ih h

/-- Claim C3: after every completed public operation (any reachable state),
every stored transmission entry's certificate-id set is exactly the set of
certificate ids `cid` with `tid ∈ Certificates[cid].transmission_ids`, and a
transmission entry exists if and only if that set is non-empty. -/
theorem c3_transmissions_agree (s : Storage) (h : Reachable s) :
    TransmissionsAgree s :=
  (stinv_of_reachable h).tx_agree

theorem c3_witness : TransmissionsAgree (Storage.new sampleCommittee 1) :=
  c3_transmissions_agree (Storage.new sampleCommittee 1)
    (Reachable.init sampleCommittee 1)

theorem swapRemoveP_singleton_pos {α : Type} {p : α → Bool} {x : α}
    (h : p x = true) : swapRemoveP p [x] = [] := by
  rw [swapRemoveP, if_pos h]
  rfl

theorem insertA_insertA {α β : Type} [DecidableEq α] (l : List (α × β)) (k : α)
    (v w : β) : insertA (insertA l k v) k w = insertA l k w := by
  induction l with
  | nil => simp [insertA]
  | cons e rest ih =>
    obtain ⟨a, b⟩ := e
    by_cases hk : a = k
    · subst hk
      simp [insertA]
    · simp [insertA, hk, ih]

theorem insertA_append_left {α β : Type} [DecidableEq α] {l1 l2 : List (α × β)}
    {k : α} {u : β} (h : lookupA l1 k = some u) (v : β) :
    insertA (l1 ++ l2) k v = insertA l1 k v ++ l2 := by
  induction l1 with
  | nil => simp [lookupA] at h
  | cons e rest ih =>
    obtain ⟨a, b⟩ := e
    rw [lookupA] at h
    by_cases hk : a = k
    · simp [insertA, hk]
    · rw [if_neg hk] at h
      simp [insertA, hk, ih h]

theorem insertA_append_right {α β : Type} [DecidableEq α] {l1 l2 : List (α × β)}
    {k : α} (h : lookupA l1 k = none) (v : β) :
    insertA (l1 ++ l2) k v = l1 ++ insertA l2 k v := by
  induction l1 with
  | nil => simp
  | cons e rest ih =>
    obtain ⟨a, b⟩ := e
    rw [lookupA] at h
    by_cases hk : a = k
    · simp [hk] at h
    · rw [if_neg hk] at h
      simp [insertA, hk, ih h]

theorem swapRemoveA_append_left {α β : Type} [DecidableEq α]
    {l1 l2 : List (α × β)} {k : α} (h : ∀ e ∈ l1, e.1 ≠ k) :
    swapRemoveA (l1 ++ l2) k = l1 ++ swapRemoveA l2 k := by
  rw [swapRemoveA, swapRemoveA]
  exact swapRemoveP_append_left (fun y hy => by simp [h y hy])

theorem swapRemoveA_insertA_fresh {α β : Type} [DecidableEq α]
    {l : List (α × β)} {k : α} {v : β} (h : lookupA l k = none) :
    swapRemoveA (insertA l k v) k = l := by
  rw [insertA_of_lookupA_none v h, swapRemoveA]
  apply swapRemoveP_append_last
  · simp
  · intro y hy
    rw [lookupA_eq_none_iff] at h
    simp only [decide_eq_false_iff_not]
    intro hc
    exact h (hc ▸ List.mem_map_of_mem Prod.fst hy)

theorem insertA_map_updOld_restore {tx : List (Nat × (Nat × List Nat))}
    {t cid : Nat} {rest : List Nat} {v : Nat × List Nat}
    (hnd : (keysOf tx).Nodup) (hrest : t ∉ rest) (he : lookupA tx t = some v) :
    insertA (tx.map (updOld (t :: rest) cid)) t v = tx.map (updOld rest cid) := by
  induction tx with
  | nil => simp [lookupA] at he
  | cons e rest2 ih =>
    obtain ⟨a, b⟩ := e
    simp only [keysOf, List.map_cons, List.nodup_cons] at hnd
    rw [lookupA] at he
    by_cases ha : a = t
    · subst ha
      rw [if_pos rfl] at he
      injection he with he
      subst he
      rw [List.map_cons, List.map_cons]
      have h1 : updOld (a :: rest) cid (a, b) = (a, (b.1, insertS b.2 cid)) := by
        simp [updOld]
      have h2 : updOld rest cid (a, b) = (a, b) := by
        simp [updOld, hrest]
      rw [h1, h2]
      have h3 : insertA ((a, (b.1, insertS b.2 cid)) ::
          rest2.map (updOld (a :: rest) cid)) a b
          = (a, b) :: rest2.map (updOld (a :: rest) cid) := by
        simp [insertA]
      rw [h3]
      congr 1
      have hnk : ∀ x ∈ rest2, x.1 ≠ a :=
        fun x hx hc => hnd.1 (hc ▸ List.mem_map_of_mem Prod.fst hx)
      exact (map_updOld_not_key hnk).symm
    · rw [if_neg ha] at he
      rw [List.map_cons, List.map_cons]
      have hhd : updOld (t :: rest) cid (a, b) = updOld rest cid (a, b) := by
        by_cases hm : a ∈ rest
        · simp [updOld, hm]
        · have hm2 : ¬ a ∈ t :: rest := by
            intro hc
            rcases List.mem_cons.mp hc with hc | hc
            · exact ha hc
            · exact hm hc
          simp [updOld, hm, hm2]
      have h2 : insertA (updOld (t :: rest) cid (a, b) ::
          rest2.map (updOld (t :: rest) cid)) t v
          = updOld (t :: rest) cid (a, b) ::
            insertA (rest2.map (updOld (t :: rest) cid)) t v := by
        rw [insertA, if_neg (by rw [updOld_fst]; exact ha)]
      rw [h2, hhd, ih hnd.2 he]

theorem roundsRemove_roundsInsert {l : List (Nat × List (Nat × Nat × Nat))}
    {r : Nat} {t : Nat × Nat × Nat} (hnd : (keysOf l).Nodup)
    (hfresh : ∀ es, lookupA l r = some es → t ∉ es)
    (hne : ∀ es, lookupA l r = some es → es ≠ []) :
    roundsRemove (roundsInsert l r t) r t = l := by
  rcases hlk : lookupA l r with _ | es
  · have hnotin : ∀ e ∈ l, e.1 ≠ r := by
      intro e he hc
      exact (lookupA_eq_none_iff.mp hlk) (hc ▸ List.mem_map_of_mem Prod.fst he)
    have hIns : roundsInsert l r t = l ++ [(r, [t])] := by
      simp only [roundsInsert, hlk, insertS_nil]
    rw [hIns, roundsRemove]
    have hlk2 : lookupA (l ++ [(r, [t])]) r = some [t] := by
      rw [lookupA_append_of_none hlk]
      simp [lookupA]
    have hsw : swapRemoveP (fun e => decide (e = t)) [t] = [] :=
      swapRemoveP_singleton_pos (by simp)
    have h1 : insertA (l ++ [(r, [t])]) r ([] : List (Nat × Nat × Nat))
        = l ++ [(r, [])] := by
      rw [insertA_append_right hlk]
      simp [insertA]
    have hlk3 : lookupA (l ++ [(r, ([] : List (Nat × Nat × Nat)))]) r = some [] := by
      rw [lookupA_append_of_none hlk]
      simp [lookupA]
    have h3 : swapRemoveA (l ++ [(r, ([] : List (Nat × Nat × Nat)))]) r = l := by
      rw [swapRemoveA_append_left hnotin, swapRemoveA,
        swapRemoveP_singleton_pos (by simp), List.append_nil]
    simp only [hlk2, hsw, h1, hlk3, List.isEmpty_nil, if_true, h3]
  · have hfr := hfresh es hlk
    have hnem := hne es hlk
    have hIns : roundsInsert l r t = insertA l r (es ++ [t]) := by
      simp only [roundsInsert, hlk]
      rw [insertS_of_not_mem hfr]
    rw [hIns, roundsRemove]
    have hlk2 : lookupA (insertA l r (es ++ [t])) r = some (es ++ [t]) :=
      lookupA_insertA_self
    have hsw : swapRemoveP (fun e => decide (e = t)) (es ++ [t]) = es :=
      swapRemoveP_append_last (by simp)
        (fun y hy => by
          simp only [decide_eq_false_iff_not]
          intro hc
          exact hfr (hc ▸ hy))
    have h1 : insertA (insertA l r (es ++ [t])) r es = l := by
      rw [insertA_insertA, insertA_self hlk]
    have hemp : es.isEmpty = false := by
      cases es with
      | nil => exact absurd rfl hnem
      | cons a l2 => rfl
    simp only [hlk2, hsw, h1, hlk, hemp, Bool.false_eq_true, if_false]

theorem remove_tx_restore (cid : Nat) (tx : List (Nat × (Nat × List Nat)))
    (hnd : (keysOf tx).Nodup)
    (hv : ∀ k w, lookupA tx k = some w → cid ∉ w.2 ∧ w.2 ≠ []) :
    ∀ rest G, rest.Nodup → (keysOf G).Nodup →
      (∀ e ∈ G, e.1 ∈ rest ∧ lookupA tx e.1 = none ∧ e.2.2 = [cid]) →
      (∀ u ∈ rest, lookupA tx u = none → u ∈ keysOf G) →
      remove_tx cid (tx.map (updOld rest cid) ++ G) rest = tx := by
  intro rest
  induction rest with
  | nil =>
    intro G hndr hndG hG hcov
    have hGnil : G = [] := by
      cases G with
      | nil => rfl
      | cons e G2 => exact absurd (hG e (List.mem_cons_self _ _)).1 (List.not_mem_nil _)
    rw [hGnil, List.append_nil, map_updOld_nil]
    rfl
  | cons t rest' ih =>
    intro G hndr hndG hG hcov
    rw [List.nodup_cons] at hndr
    rw [remove_tx, List.foldl_cons]
    rcases he : lookupA tx t with _ | v
    · -- the processed id is fresh in tx: its entry lives in G
      have htG : t ∈ keysOf G := hcov t (List.mem_cons_self _ _) he
      have hAnone : lookupA (tx.map (updOld (t :: rest') cid)) t = none := by
        rw [lookupA_map_updOld, he]
        rfl
      rcases hlkG : lookupA G t with _ | p
      · rw [lookupA_eq_none_iff] at hlkG
        exact absurd htG hlkG
      have hmemG := lookupA_mem hlkG
      have hpval : p.2 = [cid] := (hG (t, p) hmemG).2.2
      have hcur : lookupA (tx.map (updOld (t :: rest') cid) ++ G) t = some p := by
        rw [lookupA_append_of_none hAnone, hlkG]
      have hsw : swapRemoveP (fun c => decide (c = cid)) p.2 = [] := by
        rw [hpval]
        exact swapRemoveP_singleton_pos (by simp)
      simp only [remove_tx_step, hcur, hsw, List.isEmpty_nil, if_true]
      have hno : ∀ e ∈ tx.map (updOld (t :: rest') cid), e.1 ≠ t := by
        intro e hee hc
        obtain ⟨e0, he0, rfl⟩ := List.mem_map.mp hee
        rw [updOld_fst] at hc
        exact (lookupA_eq_none_iff.mp he) (hc ▸ List.mem_map_of_mem Prod.fst he0)
      have hstep : swapRemoveA
          (insertA (tx.map (updOld (t :: rest') cid) ++ G) t (p.1, [])) t
          = tx.map (updOld rest' cid) ++ swapRemoveA (insertA G t (p.1, [])) t := by
        rw [insertA_append_right hAnone, swapRemoveA_append_left hno,
          ← map_updOld_fresh he]
      rw [hstep]
      have hndG' : (keysOf (swapRemoveA (insertA G t (p.1, [])) t)).Nodup :=
        nodup_keys_swapRemoveA (nodup_keys_insertA hndG)
      have hG' : ∀ e ∈ swapRemoveA (insertA G t (p.1, [])) t,
          e.1 ∈ rest' ∧ lookupA tx e.1 = none ∧ e.2.2 = [cid] := by
        intro e hee
        have h2 := (mem_swapRemoveA_iff (nodup_keys_insertA hndG)).mp hee
        rcases mem_insertA_sub h2.1 with h3 | h3
        · obtain ⟨hm1, hm2, hm3⟩ := hG e h3
          refine ⟨?_, hm2, hm3⟩
          rcases List.mem_cons.mp hm1 with hc | hc
          · exact absurd hc h2.2
          · exact hc
        · exact absurd (by rw [h3]) h2.2
      have hcov' : ∀ u ∈ rest', lookupA tx u = none →
          u ∈ keysOf (swapRemoveA (insertA G t (p.1, [])) t) := by
        intro u hu hnu
        have hut : u ≠ t := fun hc => hndr.1 (hc ▸ hu)
        have huG : u ∈ keysOf G := hcov u (List.mem_cons_of_mem _ hu) hnu
        rcases hlg : lookupA G u with _ | w
        · rw [lookupA_eq_none_iff] at hlg
          exact absurd huG hlg
        have hl2 : lookupA (insertA G t (p.1, [])) u = some w := by
          rw [lookupA_insertA_ne hut, hlg]
        have hmem2 : (u, w) ∈ swapRemoveA (insertA G t (p.1, [])) t :=
          (mem_swapRemoveA_iff (nodup_keys_insertA hndG)).mpr
            ⟨lookupA_mem hl2, hut⟩
        exact List.mem_map_of_mem Prod.fst hmem2
      have hrec := ih (swapRemoveA (insertA G t (p.1, [])) t)
        hndr.2 hndG' hG' hcov'
      rw [remove_tx] at hrec
      exact hrec
    · -- the processed id already had an entry in tx
      obtain ⟨hcidv, hvne⟩ := hv t v he
      have hA : lookupA (tx.map (updOld (t :: rest') cid)) t
          = some (v.1, insertS v.2 cid) := by
        rw [lookupA_map_updOld, he]
        simp
      have hcur : lookupA (tx.map (updOld (t :: rest') cid) ++ G) t
          = some (v.1, insertS v.2 cid) := lookupA_append_of_some hA
      have hins : insertS v.2 cid = v.2 ++ [cid] := insertS_of_not_mem hcidv
      have hsw : swapRemoveP (fun c => decide (c = cid)) (insertS v.2 cid) = v.2 := by
        rw [hins]
        exact swapRemoveP_append_last (by simp)
          (fun y hy => by
            simp only [decide_eq_false_iff_not]
            intro hc
            exact hcidv (hc ▸ hy))
      have hemp : v.2.isEmpty = false := by
        rcases hh : v.2 with _ | ⟨a, l2⟩
        · exact absurd hh hvne
        · rfl
      simp only [remove_tx_step, hcur, hsw, hemp, Bool.false_eq_true, if_false]
      have hstep : insertA (tx.map (updOld (t :: rest') cid) ++ G) t (v.1, v.2)
          = tx.map (updOld rest' cid) ++ G := by
        rw [insertA_append_left hA, insertA_map_updOld_restore hnd hndr.1
          (show lookupA tx t = some (v.1, v.2) from he)]
      rw [hstep]
      have hG' : ∀ e ∈ G, e.1 ∈ rest' ∧ lookupA tx e.1 = none ∧ e.2.2 = [cid] := by
        intro e hee
        obtain ⟨hm1, hm2, hm3⟩ := hG e hee
        refine ⟨?_, hm2, hm3⟩
        rcases List.mem_cons.mp hm1 with hc | hc
        · rw [hc, he] at hm2
          cases hm2
        · exact hc
      have hcov' : ∀ u ∈ rest', lookupA tx u = none → u ∈ keysOf G :=
        fun u hu hnu => hcov u (List.mem_cons_of_mem _ hu) hnu
      have hrec := ih G hndr.2 hndG hG' hcov'
      rw [remove_tx] at hrec
      exact hrec

/-- Claim C7: from any reachable state in which the certificate is admitted,
`insert_certificate` followed by `remove_certificate` of the same certificate
id restores the exact starting state: every index (committees, rounds,
certificates, batch ids, transmissions), including iteration order, and both
scalars are as before the insert. -/
theorem c7_insert_remove_roundtrip (s s1 : Storage) (lv : Int → Bool)
    (certificate : BatchCertificate) (transmissions : List (Nat × Nat))
    (hr : Reachable s) (hndtids : certificate.transmission_ids.Nodup)
    (h : s.insert_certificate lv certificate transmissions = some (.ok (), s1)) :
    s1.remove_certificate certificate.certificate_id = (true, s) := by
  have hs := stinv_of_reachable hr
  unfold Storage.insert_certificate at h
  by_cases hgc : certificate.round ≤ s.gc_round
  · rw [if_pos hgc] at h
    injection h with h
    rw [Prod.mk.injEq] at h
    exact Except.noConfusion h.1
  rw [if_neg hgc] at h
  rcases hchk : s.check_certificate lv certificate transmissions with e | m
  · simp only [hchk] at h
    injection h with h
    rw [Prod.mk.injEq] at h
    exact Except.noConfusion h.1
  simp only [hchk] at h
  rcases hat : s.insert_certificate_atomic certificate m with _ | s2
  · simp only [hat] at h
    exact Option.noConfusion h
  simp only [hat] at h
  injection h with h
  rw [Prod.mk.injEq] at h
  obtain ⟨-, hs1⟩ := h
  subst hs1
  -- admission facts
  obtain ⟨h1, -, hbh, -⟩ := check_certificate_ok_inv hchk
  have hcid : lookupA s.certificates certificate.certificate_id = none :=
    containsA_eq_false_iff.mp h1
  have hbid : lookupA s.batch_ids certificate.batch_id = none :=
    containsA_eq_false_iff.mp (check_batch_header_ok_batch hbh)
  -- invert the atomic insert
  unfold Storage.insert_certificate_atomic at hat
  rcases htx : insert_tx certificate.certificate_id certificate.transmission_ids
      (s.transmissions, m) with _ | txm
  · simp only [htx] at hat
    exact Option.noConfusion hat
  simp only [htx] at hat
  injection hat with hat
  have hcov := insert_tx_covers htx
  obtain ⟨F, m2, hFeq, hF, hFnd, hFiff⟩ := insert_tx_struct hs.ndt hcov
  have htxm : txm = (s.transmissions.map
      (updOld certificate.transmission_ids certificate.certificate_id) ++ F, m2) := by
    rw [htx] at hFeq
    injection hFeq with hFeq
  -- field equations for the post-insert state
  have e1 : s2.rounds = roundsInsert s.rounds certificate.round
      (certificate.certificate_id, certificate.batch_id, certificate.author) := by
    rw [← hat]
  have e2 : s2.certificates =
      insertA s.certificates certificate.certificate_id certificate := by
    rw [← hat]
  have e3 : s2.batch_ids =
      insertA s.batch_ids certificate.batch_id certificate.round := by
    rw [← hat]
  have e4 : s2.transmissions = s.transmissions.map
      (updOld certificate.transmission_ids certificate.certificate_id) ++ F := by
    rw [← hat, htxm]
  have e5 : s2.current_round = s.current_round := by
    rw [← hat]
  have e6 : s2.committees = s.committees := by
    rw [← hat]
  have e7 : s2.gc_round = s.gc_round := by
    rw [← hat]
  have e8 : s2.max_gc_rounds = s.max_gc_rounds := by
    rw [← hat]
  -- the round-trip of each index
  have hfreshr : ∀ es, lookupA s.rounds certificate.round = some es →
      (certificate.certificate_id, certificate.batch_id, certificate.author) ∉ es := by
    intro es hes hmem
    obtain ⟨cert2, hc2, -, -, -⟩ := hs.agree_rc certificate.round es
      (lookupA_mem hes)
      (certificate.certificate_id, certificate.batch_id, certificate.author) hmem
    exact (lookupA_eq_none_iff.mp hcid) (List.mem_map_of_mem Prod.fst hc2)
  have hner : ∀ es, lookupA s.rounds certificate.round = some es → es ≠ [] :=
    fun es hes => hs.rsets_nonempty certificate.round es (lookupA_mem hes)
  have hrds := roundsRemove_roundsInsert hs.ndr hfreshr hner
  have hcs : swapRemoveA (insertA s.certificates certificate.certificate_id
      certificate) certificate.certificate_id = s.certificates :=
    swapRemoveA_insertA_fresh hcid
  have hbs : swapRemoveA (insertA s.batch_ids certificate.batch_id
      certificate.round) certificate.batch_id = s.batch_ids :=
    swapRemoveA_insertA_fresh hbid
  have hvfacts : ∀ k w, lookupA s.transmissions k = some w →
      certificate.certificate_id ∉ w.2 ∧ w.2 ≠ [] := by
    intro k w hw
    obtain ⟨part1, part2⟩ := hs.tx_agree k
    have hiff := part1 w.1 w.2 hw
    constructor
    · intro hmem
      obtain ⟨cert2, hlc, -⟩ := (hiff certificate.certificate_id).mp hmem
      rw [hcid] at hlc
      cases hlc
    · have hsome : (lookupA s.transmissions k).isSome = true := by
        rw [hw]
        rfl
      obtain ⟨c, hc⟩ := part2.mp hsome
      exact List.ne_nil_of_mem ((hiff c).mpr hc)
  have hGprop : ∀ e ∈ F, e.1 ∈ certificate.transmission_ids ∧
      lookupA s.transmissions e.1 = none ∧ e.2.2 = [certificate.certificate_id] := by
    intro e hee
    obtain ⟨ha, hb, hc⟩ := hF e hee
    exact ⟨ha, hc, hb⟩
  have hGcov : ∀ u ∈ certificate.transmission_ids,
      lookupA s.transmissions u = none → u ∈ keysOf F :=
    fun u hu hnu => (hFiff u).mpr ⟨hu, hnu⟩
  have hts := remove_tx_restore certificate.certificate_id s.transmissions
    hs.ndt hvfacts certificate.transmission_ids F hndtids hFnd hGprop hGcov
  -- perform the removal
  have hlkc : lookupA s2.certificates certificate.certificate_id
      = some certificate := by
    rw [e2]
    exact lookupA_insertA_self
  rw [remove_certificate_present hlkc, Prod.mk.injEq]
  refine ⟨rfl, ?_⟩
  rw [e1, e2, e3, e4, e5, e6, e7, e8, hrds, hcs, hbs, hts]

theorem c7_witness :
    sampleMid.remove_certificate sampleCert.certificate_id = (true, sample0) :=
  c7_insert_remove_roundtrip sample0 sampleMid lvT sampleCert sampleProvided
    (Reachable.init sampleCommittee 1) (by decide) (by rfl)

theorem mem_get_certificates {t : Storage} {r : Nat} {c : BatchCertificate}
    (hs : StInv t) (hc : c ∈ t.get_certificates_for_round r) :
    lookupA t.certificates c.certificate_id = some c ∧ c.round = r := by
  unfold Storage.get_certificates_for_round at hc
  by_cases h0 : r = 0
  · rw [if_pos h0] at hc
    exact absurd hc (List.not_mem_nil c)
  rw [if_neg h0] at hc
  rcases hlk : lookupA t.rounds r with _ | entries
  · simp only [hlk] at hc
    exact absurd hc (List.not_mem_nil c)
  simp only [hlk] at hc
  rw [mem_dedupFirst] at hc
  obtain ⟨e, he, hfe⟩ := List.mem_filterMap.mp hc
  have hcidc : c.certificate_id = e.1 := hs.cid_coherent e.1 c (lookupA_mem hfe)
  obtain ⟨cert2, hc2, hr2, -, -⟩ := hs.agree_rc r entries (lookupA_mem hlk) e he
  have hl2 : lookupA t.certificates e.1 = some cert2 :=
    lookupA_of_mem_nodup hs.ndx hc2
  rw [hfe] at hl2
  injection hl2 with hl2
  subst hl2
  exact ⟨by rw [hcidc]; exact hfe, hr2⟩

theorem round_entry_covered {t : Storage} {r : Nat} {es : List (Nat × Nat × Nat)}
    (hs : StInv t) (hlk : lookupA t.rounds r = some es) :
    ∀ e ∈ es, ∃ c ∈ t.get_certificates_for_round r, c.certificate_id = e.1 := by
  intro e he
  obtain ⟨cert2, hc2, -, -, -⟩ := hs.agree_rc r es (lookupA_mem hlk) e he
  have hl2 : lookupA t.certificates e.1 = some cert2 :=
    lookupA_of_mem_nodup hs.ndx hc2
  have hr1 : 1 ≤ r := hs.rounds_pos r es (lookupA_mem hlk)
  refine ⟨cert2, ?_, hs.cid_coherent e.1 cert2 (lookupA_mem hl2)⟩
  unfold Storage.get_certificates_for_round
  rw [if_neg (by omega)]
  simp only [hlk]
  rw [mem_dedupFirst]
  exact List.mem_filterMap.mpr ⟨e, he, hl2⟩

theorem lookupA_swapRemoveA_none {α β : Type} [DecidableEq α]
    {l : List (α × β)} {k x : α} (h : lookupA l x = none) :
    lookupA (swapRemoveA l k) x = none := by
  rw [lookupA_eq_none_iff] at h ⊢
  exact fun hc => h (mem_keysOf_swapRemoveA_sub hc)

theorem remove_certificate_cert_none {t : Storage} {cid x : Nat}
    (h : lookupA t.certificates x = none) :
    lookupA (t.remove_certificate cid).2.certificates x = none := by
  rcases hlc : lookupA t.certificates cid with _ | cert
  · rw [remove_certificate_absent hlc]
    exact h
  · rw [remove_certificate_present hlc]
    exact lookupA_swapRemoveA_none h

theorem rc_fold_cert_none (C : List BatchCertificate) :
    ∀ (t : Storage) (x : Nat), lookupA t.certificates x = none →
      lookupA ((C.foldl (fun u c => (u.remove_certificate c.certificate_id).2)
        t).certificates) x = none := by
  induction C with
  | nil => exact fun t x h => h
  | cons c C2 ih =>
    intro t x h
    rw [List.foldl_cons]
    exact ih _ x (remove_certificate_cert_none h)

theorem rc_fold_committees (C : List BatchCertificate) :
    ∀ t : Storage,
      (C.foldl (fun u c => (u.remove_certificate c.certificate_id).2)
        t).committees = t.committees := by
  induction C with
  | nil => exact fun t => rfl
  | cons c C2 ih =>
    intro t
    rw [List.foldl_cons, ih, (remove_certificate_frame t c.certificate_id).2]

theorem gc_one_committees (t : Storage) (r : Nat) :
    (gc_one_round t r).committees = swapRemoveA t.committees r := by
  show swapRemoveA ((t.get_certificates_for_round r).foldl
    (fun u c => (u.remove_certificate c.certificate_id).2) t).committees r
    = swapRemoveA t.committees r
  rw [rc_fold_committees]

theorem gc_one_rounds (t : Storage) (r : Nat) :
    (gc_one_round t r).rounds = ((t.get_certificates_for_round r).foldl
      (fun u c => (u.remove_certificate c.certificate_id).2) t).rounds := rfl

theorem gc_one_certificates (t : Storage) (r : Nat) :
    (gc_one_round t r).certificates = ((t.get_certificates_for_round r).foldl
      (fun u c => (u.remove_certificate c.certificate_id).2) t).certificates := rfl

theorem rc_fold_removes_certs (C : List BatchCertificate) :
    ∀ t : Storage, StInv t → ∀ x : Nat, (∃ c ∈ C, c.certificate_id = x) →
      lookupA ((C.foldl (fun u c => (u.remove_certificate c.certificate_id).2)
        t).certificates) x = none := by
  induction C with
  | nil =>
    rintro t - x ⟨c, hc, -⟩
    exact absurd hc (List.not_mem_nil c)
  | cons c C2 ih =>
    rintro t hs x ⟨c2, hc2, hid⟩
    rw [List.foldl_cons]
    rcases List.mem_cons.mp hc2 with rfl | hmem
    · -- the head removal makes x absent; later removals keep it absent
      have hafter : lookupA (t.remove_certificate c2.certificate_id).2.certificates
          c2.certificate_id = none := by
        rcases hlc : lookupA t.certificates c2.certificate_id with _ | cert
        · rw [remove_certificate_absent hlc]
          exact hlc
        · rw [remove_certificate_present hlc]
          exact lookupA_swapRemoveA_self hs.ndx
      rw [← hid]
      exact rc_fold_cert_none C2 _ c2.certificate_id hafter
    · exact ih _ (stinv_remove t c.certificate_id hs) x ⟨c2, hmem, hid⟩

theorem remove_certificate_rounds_none {t : Storage} {cid r : Nat}
    (hs : StInv t) (h : lookupA t.rounds r = none) :
    lookupA (t.remove_certificate cid).2.rounds r = none := by
  rcases hlc : lookupA t.certificates cid with _ | cert
  · rw [remove_certificate_absent hlc]
    exact h
  · rw [remove_certificate_present hlc]
    by_cases hcr : cert.round = r
    · subst hcr
      exact roundsRemove_lookup_self_none hs.ndr h
    · rw [roundsRemove_lookup_ne hs.ndr (fun hc => hcr hc.symm)]
      exact h

theorem rc_fold_rounds_none (C : List BatchCertificate) :
    ∀ (t : Storage) (r : Nat), StInv t → lookupA t.rounds r = none →
      lookupA ((C.foldl (fun u c => (u.remove_certificate c.certificate_id).2)
        t).rounds) r = none := by
  induction C with
  | nil => exact fun t r _ h => h
  | cons c C2 ih =>
    intro t r hs h
    rw [List.foldl_cons]
    exact ih _ r (stinv_remove t c.certificate_id hs)
      (remove_certificate_rounds_none hs h)

theorem rc_fold_purges_round (r : Nat) (C : List BatchCertificate) :
    ∀ t : Storage, StInv t →
      (∀ e ∈ (lookupA t.rounds r).getD [], ∃ c ∈ C, c.certificate_id = e.1) →
      lookupA ((C.foldl (fun u c => (u.remove_certificate c.certificate_id).2)
        t).rounds) r = none := by
  induction C with
  | nil =>
    intro t hs hcov
    rcases hlk : lookupA t.rounds r with _ | es
    · exact hlk
    · have hne := hs.rsets_nonempty r es (lookupA_mem hlk)
      rcases es with _ | ⟨e0, es2⟩
      · exact absurd rfl hne
      · obtain ⟨c, hc, -⟩ := hcov e0 (by simp [hlk])
        exact absurd hc (List.not_mem_nil c)
  | cons c C2 ih =>
    intro t hs hcov
    rw [List.foldl_cons]
    apply ih _ (stinv_remove t c.certificate_id hs)
    intro e he
    rcases hlc : lookupA t.certificates c.certificate_id with _ | cert
    · rw [remove_certificate_absent hlc] at he
      obtain ⟨c2, hc2, hid⟩ := hcov e he
      rcases List.mem_cons.mp hc2 with rfl | hmem
      · rcases hlk : lookupA t.rounds r with _ | es
        · rw [hlk] at he
          exact absurd he (List.not_mem_nil e)
        rw [hlk] at he
        simp only [Option.getD_some] at he
        obtain ⟨cert2, hcc, -, -, -⟩ := hs.agree_rc r es (lookupA_mem hlk) e he
        have hl2 := lookupA_of_mem_nodup hs.ndx hcc
        rw [← hid, hlc] at hl2
        cases hl2
      · exact ⟨c2, hmem, hid⟩
    · rw [remove_certificate_present hlc] at he
      have he2 : e ∈ (lookupA (roundsRemove t.rounds cert.round
          (c.certificate_id, cert.batch_id, cert.author)) r).getD [] := he
      by_cases hcr : cert.round = r
      · subst hcr
        rcases hlk : lookupA t.rounds cert.round with _ | es
        · rw [roundsRemove_lookup_self_none hs.ndr hlk] at he2
          exact absurd he2 (List.not_mem_nil e)
        · have hpair := roundsRemove_lookup_self_some
            (c.certificate_id, cert.batch_id, cert.author) hs.ndr hlk
          by_cases hemp : swapRemoveP
              (fun x => decide (x = (c.certificate_id, cert.batch_id,
                cert.author))) es = []
          · rw [hpair.1 hemp] at he2
            exact absurd he2 (List.not_mem_nil e)
          · rw [hpair.2 hemp] at he2
            simp only [Option.getD_some] at he2
            have hnd_es := hs.rsets_nodup cert.round es (lookupA_mem hlk)
            have hee : e ∈ es ∧
                e ≠ (c.certificate_id, cert.batch_id, cert.author) :=
              (mem_eraseFirstP_elem_iff hnd_es).mp
                ((swapRemoveP_perm _ es).mem_iff.mp he2)
            obtain ⟨c2, hc2, hid⟩ := hcov e (by simp [hlk, hee.1])
            rcases List.mem_cons.mp hc2 with rfl | hmem
            · obtain ⟨cert2, hcc, -, hb2, ha2⟩ :=
                hs.agree_rc cert.round es (lookupA_mem hlk) e hee.1
              have hl2 := lookupA_of_mem_nodup hs.ndx hcc
              rw [← hid, hlc] at hl2
              injection hl2 with hl2
              subst hl2
              refine absurd ?_ hee.2
              rw [hid, hb2, ha2]
            · exact ⟨c2, hmem, hid⟩
      · rw [roundsRemove_lookup_ne hs.ndr
          (fun hc => hcr hc.symm)] at he2
        obtain ⟨c2, hc2, hid⟩ := hcov e he2
        rcases List.mem_cons.mp hc2 with rfl | hmem
        · rcases hlk : lookupA t.rounds r with _ | es
          · rw [hlk] at he2
            exact absurd he2 (List.not_mem_nil e)
          rw [hlk] at he2
          simp only [Option.getD_some] at he2
          obtain ⟨cert2, hcc, hr2, -, -⟩ := hs.agree_rc r es (lookupA_mem hlk) e he2
          have hl2 := lookupA_of_mem_nodup hs.ndx hcc
          rw [← hid, hlc] at hl2
          injection hl2 with hl2
          subst hl2
          exact absurd hr2 hcr
        · exact ⟨c2, hmem, hid⟩

theorem rc_fold_rounds_ne (C : List BatchCertificate) :
    ∀ (t : Storage) (r : Nat), StInv t →
      (∀ c ∈ C, ∀ cert,
        lookupA t.certificates c.certificate_id = some cert → cert.round ≠ r) →
      lookupA ((C.foldl (fun u c => (u.remove_certificate c.certificate_id).2)
        t).rounds) r = lookupA t.rounds r := by
  induction C with
  | nil => exact fun t r _ _ => rfl
  | cons c C2 ih =>
    intro t r hs hcond
    rw [List.foldl_cons]
    rcases hlc : lookupA t.certificates c.certificate_id with _ | cert
    · have ht2 : (t.remove_certificate c.certificate_id).2 = t := by
        rw [remove_certificate_absent hlc]
      rw [ht2]
      exact ih t r hs (fun c2 hc2 cert2 hl2 =>
        hcond c2 (List.mem_cons_of_mem _ hc2) cert2 hl2)
    · have h1 : lookupA (t.remove_certificate c.certificate_id).2.rounds r
          = lookupA t.rounds r := by
        rw [remove_certificate_present hlc]
        show lookupA (roundsRemove t.rounds cert.round
          (c.certificate_id, cert.batch_id, cert.author)) r = lookupA t.rounds r
        exact roundsRemove_lookup_ne hs.ndr
          (fun hc => hcond c (List.mem_cons_self _ _) cert hlc hc.symm)
      have hcond2 : ∀ c2 ∈ C2, ∀ cert2,
          lookupA (t.remove_certificate c.certificate_id).2.certificates
            c2.certificate_id = some cert2 → cert2.round ≠ r := by
        intro c2 hc2 cert2 hl2
        rw [remove_certificate_present hlc] at hl2
        have hl3 : lookupA (swapRemoveA t.certificates c.certificate_id)
            c2.certificate_id = some cert2 := hl2
        have hmem4 : (c2.certificate_id, cert2) ∈ t.certificates :=
          mem_swapRemoveP_sub (lookupA_mem hl3)
        exact hcond c2 (List.mem_cons_of_mem _ hc2) cert2
          (lookupA_of_mem_nodup hs.ndx hmem4)
      rw [ih _ r (stinv_remove t c.certificate_id hs) hcond2, h1]

theorem gc_fold_comm_none (L : List Nat) :
    ∀ (t : Storage) (x : Nat), lookupA t.committees x = none →
      lookupA ((L.foldl gc_one_round t).committees) x = none := by
  induction L with
  | nil => exact fun t x h => h
  | cons r L2 ih =>
    intro t x h
    rw [List.foldl_cons]
    apply ih
    rw [gc_one_committees]
    exact lookupA_swapRemoveA_none h

theorem gc_fold_cert_none (L : List Nat) :
    ∀ (t : Storage) (x : Nat), lookupA t.certificates x = none →
      lookupA ((L.foldl gc_one_round t).certificates) x = none := by
  induction L with
  | nil => exact fun t x h => h
  | cons r L2 ih =>
    intro t x h
    rw [List.foldl_cons]
    apply ih
    rw [gc_one_certificates]
    exact rc_fold_cert_none _ _ x h

theorem gc_fold_rounds_none (L : List Nat) :
    ∀ (t : Storage) (x : Nat), StInv t → (∀ r ∈ L, r ≠ t.current_round) →
      lookupA t.rounds x = none →
      lookupA ((L.foldl gc_one_round t).rounds) x = none := by
  induction L with
  | nil => exact fun t x _ _ h => h
  | cons r L2 ih =>
    intro t x hs hL h
    rw [List.foldl_cons]
    have h2 : lookupA (gc_one_round t r).rounds x = none := by
      rw [gc_one_rounds]
      exact rc_fold_rounds_none _ t x hs h
    obtain ⟨hg1, hg2⟩ := stinv_gc_one t r hs (hL r (List.mem_cons_self _ _))
    exact ih _ x hg1
      (fun r2 hr2 => by rw [hg2]; exact hL r2 (List.mem_cons_of_mem _ hr2)) h2

theorem gc_fold_comm_keep (L : List Nat) :
    ∀ (t : Storage) (x : Nat), StInv t → (∀ r ∈ L, r ≠ t.current_round) →
      (∀ r ∈ L, r ≠ x) →
      lookupA ((L.foldl gc_one_round t).committees) x
        = lookupA t.committees x := by
  induction L with
  | nil => exact fun t x _ _ _ => rfl
  | cons r L2 ih =>
    intro t x hs hL hx
    rw [List.foldl_cons]
    obtain ⟨hg1, hg2⟩ := stinv_gc_one t r hs (hL r (List.mem_cons_self _ _))
    rw [ih _ x hg1
      (fun r2 hr2 => by rw [hg2]; exact hL r2 (List.mem_cons_of_mem _ hr2))
      (fun r2 hr2 => hx r2 (List.mem_cons_of_mem _ hr2))]
    rw [gc_one_committees]
    exact lookupA_swapRemoveA_ne hs.ndc
      (fun hc => hx r (List.mem_cons_self _ _) hc.symm)

theorem gc_fold_comm_gone (L : List Nat) :
    ∀ t : Storage, StInv t → (∀ x ∈ L, x ≠ t.current_round) →
      ∀ r ∈ L, lookupA ((L.foldl gc_one_round t).committees) r = none := by
  induction L with
  | nil =>
    intro t _ _ r hr
    exact absurd hr (List.not_mem_nil r)
  | cons r2 L2 ih =>
    intro t hs hL r hr
    rw [List.foldl_cons]
    rcases List.mem_cons.mp hr with rfl | hmem
    · have h2 : lookupA (gc_one_round t r).committees r = none := by
        rw [gc_one_committees]
        exact lookupA_swapRemoveA_self hs.ndc
      exact gc_fold_comm_none L2 _ r h2
    · obtain ⟨hg1, hg2⟩ := stinv_gc_one t r2 hs (hL r2 (List.mem_cons_self _ _))
      exact ih _ hg1
        (fun x hx => by rw [hg2]; exact hL x (List.mem_cons_of_mem _ hx)) r hmem

theorem gc_fold_rounds_gone (L : List Nat) :
    ∀ t : Storage, StInv t → (∀ x ∈ L, x ≠ t.current_round) →
      ∀ r ∈ L, lookupA ((L.foldl gc_one_round t).rounds) r = none := by
  induction L with
  | nil =>
    intro t _ _ r hr
    exact absurd hr (List.not_mem_nil r)
  | cons r2 L2 ih =>
    intro t hs hL r hr
    rw [List.foldl_cons]
    obtain ⟨hg1, hg2⟩ := stinv_gc_one t r2 hs (hL r2 (List.mem_cons_self _ _))
    rcases List.mem_cons.mp hr with rfl | hmem
    · have h2 : lookupA (gc_one_round t r).rounds r = none := by
        rw [gc_one_rounds]
        apply rc_fold_purges_round r _ t hs
        intro e he
        rcases hlk : lookupA t.rounds r with _ | es
        · rw [hlk] at he
          exact absurd he (List.not_mem_nil e)
        · rw [hlk] at he
          simp only [Option.getD_some] at he
          exact round_entry_covered hs hlk e he
      exact gc_fold_rounds_none L2 _ r hg1
        (fun x hx => by rw [hg2]; exact hL x (List.mem_cons_of_mem _ hx)) h2
    · exact ih _ hg1
        (fun x hx => by rw [hg2]; exact hL x (List.mem_cons_of_mem _ hx)) r hmem

theorem gc_fold_certs_gone (L : List Nat) :
    ∀ t : Storage, StInv t → (∀ x ∈ L, x ≠ t.current_round) →
      ∀ r ∈ L, ∀ e ∈ (lookupA t.rounds r).getD [],
        lookupA ((L.foldl gc_one_round t).certificates) e.1 = none := by
  induction L with
  | nil =>
    intro t _ _ r hr
    exact absurd hr (List.not_mem_nil r)
  | cons r2 L2 ih =>
    intro t hs hL r hr e he
    rw [List.foldl_cons]
    by_cases hrr : r = r2
    · subst hrr
      rcases hlk : lookupA t.rounds r with _ | es
      · rw [hlk] at he
        exact absurd he (List.not_mem_nil e)
      rw [hlk] at he
      simp only [Option.getD_some] at he
      obtain ⟨c, hcC, hid⟩ := round_entry_covered hs hlk e he
      have h2 : lookupA (gc_one_round t r).certificates e.1 = none := by
        rw [gc_one_certificates]
        exact rc_fold_removes_certs _ t hs e.1 ⟨c, hcC, hid⟩
      exact gc_fold_cert_none L2 _ e.1 h2
    · have hframe : lookupA (gc_one_round t r2).rounds r = lookupA t.rounds r := by
        rw [gc_one_rounds]
        apply rc_fold_rounds_ne _ t r hs
        intro c hcC cert hlcert
        obtain ⟨hstored, hround⟩ := mem_get_certificates hs hcC
        rw [hstored] at hlcert
        injection hlcert with hlcert
        rw [← hlcert, hround]
        exact fun hc => hrr hc.symm
      obtain ⟨hg1, hg2⟩ := stinv_gc_one t r2 hs (hL r2 (List.mem_cons_self _ _))
      have hmem2 : r ∈ L2 := (List.mem_cons.mp hr).resolve_left hrr
      apply ih _ hg1
        (fun x hx => by rw [hg2]; exact hL x (List.mem_cons_of_mem _ hx)) r hmem2 e
      rw [hframe]
      exact he

/-- Claim C9: `increment_committee_to_next_round` fails (unchanged state) when
the rounds index already holds the next round; otherwise it stores the next
committee under its round and promotes `current_round`, and when
`next_round - max_gc_rounds` exceeds the old `gc_round` it removes, for every
round `r` in the half-open interval from the old `gc_round` up to (excluding)
the new one, every certificate listed for `r` and the committee at `r`, then
sets `gc_round`; when the new watermark does not exceed the old one every
index is left exactly unchanged and `gc_round` keeps its value. -/
theorem c9_advance_cases (s s1 : Storage) (committee : Committee)
    (res : Except Err Unit) (hr : Reachable s)
    (h1 : s.get_committee s.current_round = some committee)
    (h : s.increment_committee_to_next_round = some (res, s1)) :
    (s.contains_certificates_for_round committee.to_next_round.round = true →
      res = .error .nextRoundNonempty ∧ s1 = s) ∧
    (s.contains_certificates_for_round committee.to_next_round.round = false →
      res = .ok () ∧
      s1.current_round = committee.to_next_round.round ∧
      lookupA s1.committees committee.to_next_round.round
        = some committee.to_next_round ∧
      (committee.to_next_round.round - s.max_gc_rounds > s.gc_round →
        s1.gc_round = committee.to_next_round.round - s.max_gc_rounds ∧
        ∀ r, s.gc_round ≤ r →
          r < committee.to_next_round.round - s.max_gc_rounds →
          lookupA s1.committees r = none ∧
          lookupA s1.rounds r = none ∧
          ∀ e ∈ (lookupA s.rounds r).getD [],
            lookupA s1.certificates e.1 = none) ∧
      (¬ committee.to_next_round.round - s.max_gc_rounds > s.gc_round →
        s1.gc_round = s.gc_round ∧
        s1.committees = insertA s.committees committee.to_next_round.round
          committee.to_next_round ∧
        s1.rounds = s.rounds ∧ s1.certificates = s.certificates ∧
        s1.batch_ids = s.batch_ids ∧ s1.transmissions = s.transmissions)) := by
  have hs := stinv_of_reachable hr
  unfold Storage.increment_committee_to_next_round at h
  simp only [h1] at h
  by_cases hbusy :
      s.contains_certificates_for_round committee.to_next_round.round = true
  · rw [if_pos hbusy] at h
    injection h with h
    rw [Prod.mk.injEq] at h
    constructor
    · exact fun _ => ⟨h.1.symm, h.2.symm⟩
    · intro hfalse
      rw [hbusy] at hfalse
      exact Bool.noConfusion hfalse
  · rw [if_neg hbusy] at h
    refine ⟨fun htrue => absurd htrue hbusy, fun _ => ?_⟩
    have hs1A : StInv { s with current_round := committee.to_next_round.round, committees := insertA s.committees committee.to_next_round.round committee.to_next_round } := by
      refine ⟨nodup_keys_insertA hs.ndc, hs.ndr, hs.ndx, hs.ndb, hs.ndt,
        hs.rsets_nodup, hs.rsets_nonempty, hs.rounds_pos, hs.tsets_nodup,
        hs.cid_coherent, hs.agree_rc, hs.tx_agree, ?_⟩
      show (lookupA (insertA s.committees committee.to_next_round.round
        committee.to_next_round) committee.to_next_round.round).isSome = true
      rw [lookupA_insertA_self]
      rfl
    generalize hsA : ({ s with current_round := committee.to_next_round.round, committees := insertA s.committees committee.to_next_round.round committee.to_next_round } : Storage) = sA at h hs1A
    have ecur : sA.current_round = committee.to_next_round.round := by
      rw [← hsA]
    have eR : sA.rounds = s.rounds := by
      rw [← hsA]
    have eX : sA.certificates = s.certificates := by
      rw [← hsA]
    have eB : sA.batch_ids = s.batch_ids := by
      rw [← hsA]
    have eT : sA.transmissions = s.transmissions := by
      rw [← hsA]
    have eC : sA.committees = insertA s.committees committee.to_next_round.round
        committee.to_next_round := by
      rw [← hsA]
    have eG : sA.gc_round = s.gc_round := by
      rw [← hsA]
    by_cases hgc : committee.to_next_round.round - s.max_gc_rounds > s.gc_round
    · rw [if_pos hgc] at h
      have hsub := Nat.sub_le committee.to_next_round.round s.max_gc_rounds
      have hcurL : ∀ x ∈ natRange s.gc_round
          (committee.to_next_round.round - s.max_gc_rounds),
          x ≠ sA.current_round := by
        intro x hx
        rw [mem_natRange (Nat.le_of_lt hgc)] at hx
        rw [ecur]
        omega
      have hfoldcur := (stinv_gc_fold
        (natRange s.gc_round (committee.to_next_round.round - s.max_gc_rounds))
        sA hs1A hcurL).2
      split at h
      next heq =>
        injection h with h
        rw [Prod.mk.injEq] at h
        obtain ⟨hres, hBIG⟩ := h
        refine ⟨hres.symm, ?_, ?_, fun _ => ⟨?_, ?_⟩, fun hng => absurd hgc hng⟩
        · have hcurl : s1.current_round = (List.foldl gc_one_round sA
              (natRange s.gc_round
                (committee.to_next_round.round - s.max_gc_rounds))).current_round := by
            rw [← hBIG]
          rw [hcurl, hfoldcur, ecur]
        · have hcomml : s1.committees = (List.foldl gc_one_round sA
              (natRange s.gc_round
                (committee.to_next_round.round - s.max_gc_rounds))).committees := by
            rw [← hBIG]
          rw [hcomml]
          rw [gc_fold_comm_keep _ sA committee.to_next_round.round hs1A hcurL ?hk]
          · rw [eC]
            exact lookupA_insertA_self
          case hk =>
            intro r2 hr2
            rw [mem_natRange (Nat.le_of_lt hgc)] at hr2
            omega
        · have hgcl : s1.gc_round
              = committee.to_next_round.round - s.max_gc_rounds := by
            rw [← hBIG]
          exact hgcl
        · intro r hr1 hr2
          have hrL : r ∈ natRange s.gc_round
              (committee.to_next_round.round - s.max_gc_rounds) :=
            (mem_natRange (Nat.le_of_lt hgc)).mpr ⟨hr1, hr2⟩
          have hcomml : s1.committees = (List.foldl gc_one_round sA
              (natRange s.gc_round
                (committee.to_next_round.round - s.max_gc_rounds))).committees := by
            rw [← hBIG]
          have hrndl : s1.rounds = (List.foldl gc_one_round sA
              (natRange s.gc_round
                (committee.to_next_round.round - s.max_gc_rounds))).rounds := by
            rw [← hBIG]
          have hcertl : s1.certificates = (List.foldl gc_one_round sA
              (natRange s.gc_round
                (committee.to_next_round.round - s.max_gc_rounds))).certificates := by
            rw [← hBIG]
          refine ⟨?_, ?_, ?_⟩
          · rw [hcomml]
            exact gc_fold_comm_gone _ sA hs1A hcurL r hrL
          · rw [hrndl]
            exact gc_fold_rounds_gone _ sA hs1A hcurL r hrL
          · intro e he
            rw [hcertl]
            exact gc_fold_certs_gone _ sA hs1A hcurL r hrL e (by rw [eR]; exact he)
      next hne =>
        refine absurd ?_ hne
        show committee.to_next_round.round = (List.foldl gc_one_round sA
          (natRange s.gc_round
            (committee.to_next_round.round - s.max_gc_rounds))).current_round
        rw [hfoldcur, ecur]
    · rw [if_neg hgc] at h
      split at h
      next heq =>
        injection h with h
        rw [Prod.mk.injEq] at h
        obtain ⟨hres, hseq⟩ := h
        refine ⟨hres.symm, ?_, ?_, fun hg => absurd hg hgc, fun _ => ?_⟩
        · rw [← hseq, ecur]
        · rw [← hseq, eC]
          exact lookupA_insertA_self
        · exact ⟨by rw [← hseq, eG], by rw [← hseq, eC], by rw [← hseq, eR],
            by rw [← hseq, eX], by rw [← hseq, eB], by rw [← hseq, eT]⟩
      next hne =>
        exact absurd ecur.symm hne

theorem c9_witness :
    lookupA sampleFin.committees 0 = none ∧ lookupA sampleFin.rounds 0 = none ∧
    sampleFin.current_round = 2 ∧ sampleFin.gc_round = 1 ∧
    lookupA sampleFin.committees 2 = some sampleCommittee.to_next_round := by
  have hc := c9_advance_cases sampleMid sampleFin sampleCommittee (.ok ())
    (Reachable.insert sample0 sampleMid lvT sampleCert sampleProvided (.ok ())
      (Reachable.init sampleCommittee 1) (by rfl))
    (by rfl) (by rfl)
  obtain ⟨-, h2⟩ := hc
  obtain ⟨-, hcur, hcomm, hgcb, -⟩ := h2 (by rfl)
  obtain ⟨hgceq, hall⟩ := hgcb (by decide)
  have hz := hall 0 (by decide) (by decide)
  exact ⟨hz.1, hz.2.1, hcur, by rw [hgceq]; decide, hcomm⟩
